import Mathlib

/-!
A verification development for the STOMP frame codec in `src/frame/mod.rs`.

The codec is embedded shallowly:

* Bytes are `Nat` values; byte streams are `List Nat`.  A buffered reader
  (`std::io::BufRead`) is modelled with `Cursor` semantics: `fill_buf`
  exposes the whole remainder of the stream, `consume n` drops `n` bytes,
  and a plain `read` into a buffer of size `n` yields `min n remaining`
  bytes.  Text (`str` / `String`) is likewise a byte list; `str::from_utf8`
  is modelled as the identity (all inputs used in the theorems are ASCII)
  and `char::is_whitespace` as the ASCII whitespace test.
* The submodules `frame/io.rs` (LimitedReader, DelimitedReader),
  `frame/string.rs` (encode, decode) and `frame/error.rs` (ReadError) are
  not part of the sources; they are modelled from the spec where noted.
* Fallible operations return `Except ReadErr`; the `unwrap()` on the
  `Content-Length` parse is modelled by a dedicated `panicked` outcome.
-/

namespace Stomp

/-- Source constant `MAX_COMMAND_SIZE: u64 = 1024`. -/
def MAX_COMMAND_SIZE : Nat := 1024

/-- Source constant `MAX_HEADER_SIZE: u64 = 1024 * 1000`. -/
def MAX_HEADER_SIZE : Nat := 1024 * 1000

/-- ASCII whitespace, modelling `char::is_whitespace` on ASCII bytes. -/
def isWsByte (c : Nat) : Bool :=
  c = 9 || c = 10 || c = 11 || c = 12 || c = 13 || c = 32

/-- Rust `str::trim_start`. -/
def trimStartBytes (s : List Nat) : List Nat := s.dropWhile isWsByte

/-- Rust `str::trim_end`. -/
def trimEndBytes (s : List Nat) : List Nat := (s.reverse.dropWhile isWsByte).reverse

/-- Rust `str::trim`. -/
def trimBytes (s : List Nat) : List Nat := trimEndBytes (trimStartBytes s)

/-- Rust `str::trim_end_matches('\r')`: drop every trailing carriage return. -/
def trimEndCR (s : List Nat) : List Nat := (s.reverse.dropWhile (fun c => c = 13)).reverse

/-- Byte list of a string literal (ASCII in all uses below). -/
def strBytes (s : String) : List Nat := s.data.map Char.toNat

/-- Index of the first occurrence of byte `d`, modelling `memchr::memchr`
and the delimiter search of the delimited reader. -/
def firstIdx (d : Nat) : List Nat → Option Nat
  | [] => none
  | c :: rest => if c = d then some 0 else (firstIdx d rest).map (· + 1)

/-- Rust `str::split(c)` (on every occurrence), as used by `Header::read_from`. -/
def splitOnByte (d : Nat) : List Nat → List (List Nat)
  | [] => [[]]
  | c :: rest =>
    match splitOnByte d rest with
    | [] => [[c]]
    | g :: gs => if c = d then [] :: g :: gs else (c :: g) :: gs

/-- Modelled from the spec: `string::encode` from the missing module
`src/frame/string.rs` replaces, per scanned character, backslash by
`\\`, newline by `\n`, carriage return by `\r` and colon by `\c`. -/
def encChar (c : Nat) : List Nat :=
  if c = 92 then [92, 92]
  else if c = 10 then [92, 110]
  else if c = 13 then [92, 114]
  else if c = 58 then [92, 99]
  else [c]

/-- Modelled from the spec: `string::encode` applied to a whole string. -/
def encode (s : List Nat) : List Nat := (s.map encChar).flatten

/-- Modelled from the spec: `string::decode` from the missing module
`src/frame/string.rs`; the single-pass inverse unescape, where an
unrecognized escape sequence is passed through unmodified. -/
def decode : List Nat → List Nat
  | [] => []
  | [c] => [c]
  | c :: d :: rest =>
    if c = 92 then
      if d = 92 then 92 :: decode rest
      else if d = 110 then 10 :: decode rest
      else if d = 114 then 13 :: decode rest
      else if d = 99 then 58 :: decode rest
      else 92 :: d :: decode rest
    else c :: decode (d :: rest)

/-- Lexicographic byte-wise order on keys, the `Ord` instance of Rust
`String` used by the `BTreeMap` in `Header`. -/
def ltKey : List Nat → List Nat → Bool
  | [], [] => false
  | [], _ :: _ => true
  | _ :: _, [] => false
  | a :: as, b :: bs => if a < b then true else if b < a then false else ltKey as bs

/-- The `fields: BTreeMap<String, Vec<String>>` of `Header`, embedded as an
association list kept strictly sorted by `ltKey` (the BTreeMap order). -/
abbrev Header := List (List Nat × List (List Nat))

/-- `Header::new`. -/
def Header.new : Header := []

/-- `Header::get_field`. -/
def Header.get_field : Header → List Nat → Option (List (List Nat))
  | [], _ => none
  | (k', vs) :: rest, k => if k = k' then some vs else Header.get_field rest k

/-- `Header::add_field`: append the value under the key, creating the entry
(with a singleton vector) when the key is absent.  Sorted insertion embeds
the `BTreeMap::entry(..).or_insert_with(..).push(..)` call. -/
def Header.add_field : Header → List Nat → List Nat → Header
  | [], k, v => [(k, [v])]
  | (k', vs) :: rest, k, v =>
    if ltKey k k' then (k, [v]) :: (k', vs) :: rest
    else if k = k' then (k', vs ++ [v]) :: rest
    else (k', vs) :: Header.add_field rest k v

/-- `Header::set_field`: replace the whole value vector of the key
(`BTreeMap::insert` of a copy of the given vector). -/
def Header.set_field : Header → List Nat → List (List Nat) → Header
  | [], k, vs => [(k, vs)]
  | (k', vs') :: rest, k, vs =>
    if ltKey k k' then (k, vs) :: (k', vs') :: rest
    else if k = k' then (k, vs) :: rest
    else (k', vs') :: Header.set_field rest k vs

/-- `Header::remove_field` (`BTreeMap::remove`). -/
def Header.remove_field : Header → List Nat → Header
  | [], _ => []
  | (k', vs) :: rest, k => if k = k' then rest else (k', vs) :: Header.remove_field rest k

/-- Rust `Vec::join(",")` on the value vector of one header field. -/
def joinComma : List (List Nat) → List Nat
  | [] => []
  | [v] => v
  | v :: rest => v ++ 44 :: joinComma rest

/-- One serialized header line: `format!("{}: {}\n", encode(k), encode(v.join(",")))`. -/
def headerFieldLine (k : List Nat) (vs : List (List Nat)) : List Nat :=
  encode k ++ 58 :: 32 :: encode (joinComma vs) ++ [10]

/-- `Header::write_to`: the emitted bytes together with the returned count of
bytes written (the sum of the per-line `write` results). -/
def Header.write_to : Header → List Nat × Nat
  | [] => ([], 0)
  | (k, vs) :: rest =>
    let line := headerFieldLine k vs
    let r := Header.write_to rest
    (line ++ r.1, line.length + r.2)

/-- Modelled from the spec: the error taxonomy of the missing module
`src/frame/error.rs`, restricted to the kinds the embedded code can
produce (structural `Format` errors and the limiter's size-exceeded). -/
inductive ReadErr where
  | format (msg : String)
  | sizeExceeded
deriving DecidableEq, Repr

/-- Decidable equality on `Except` results, for concrete evaluation. -/
instance instDecEqExcept {ε α : Type} [DecidableEq ε] [DecidableEq α] :
    DecidableEq (Except ε α) := fun x y =>
  match x, y with
  | .ok a, .ok b =>
    if h : a = b then .isTrue (congrArg Except.ok h)
    else .isFalse (fun he => h (Except.ok.inj he))
  | .error e, .error f =>
    if h : e = f then .isTrue (congrArg Except.error h)
    else .isFalse (fun he => h (Except.error.inj he))
  | .ok _, .error _ => .isFalse (fun he => Except.noConfusion he)
  | .error _, .ok _ => .isFalse (fun he => Except.noConfusion he)

/-- Modelled from the spec: one delimited line read through the budgeted
limiter, the composite of the missing `io::LimitedReader` and
`io::DelimitedReader`.  Yields the bytes before the first newline
(consuming the newline too) and the shrunk budget; when no newline exists
it yields whatever is available; byte counts past the budget fail with
size-exceeded. -/
def readLine (s : List Nat) (budget : Nat) : Except ReadErr (List Nat × List Nat × Nat) :=
  match firstIdx 10 s with
  | some i =>
    if i + 1 ≤ budget then .ok (s.take i, s.drop (i + 1), budget - (i + 1))
    else .error .sizeExceeded
  | none =>
    if s.length ≤ budget then .ok (s, [], budget - s.length)
    else .error .sizeExceeded

/-- The per-line body of the loop in `Header::read_from`: strip trailing
carriage returns, split on colons, reject fewer than two parts, decode the
first two parts, trim the name fully and the value on the left only,
reject an empty name, otherwise `add_field`. -/
def processLine (line : List Nat) (h : Header) : Except ReadErr Header :=
  let cleanLine := trimEndCR line
  let parts := splitOnByte 58 cleanLine
  match parts with
  | p0 :: p1 :: _ =>
    let fieldName := decode p0
    let fieldValue := decode p1
    let cleanFieldName := trimBytes fieldName
    let cleanFieldValue := trimStartBytes fieldValue
    if cleanFieldName = [] then .error (.format "empty header field name")
    else .ok (Header.add_field h cleanFieldName cleanFieldValue)
  | parts' =>
    .error (.format ("invalid number of header field parts. Expected 2, got "
      ++ toString parts'.length))

/-- The loop of `Header::read_from`: read one delimited line inside the
shared budget; a zero-length read breaks the loop, otherwise the line is
processed and the loop continues on the rest of the stream.  The loop
consumes at least one stream byte per iteration, so any fuel above the
stream length is ample; the fuel-exhausted arm is unreachable from
`Header.read_from`. -/
def headerReadLoop : Nat → List Nat → Nat → Header → Except ReadErr (Header × List Nat × Nat)
  | 0, _, _, _ => .error .sizeExceeded
  | fuel + 1, s, budget, h =>
    match firstIdx 10 s with
    | some i =>
      if i + 1 ≤ budget then
        let line := s.take i
        if line.length < 1 then .ok (h, s.drop (i + 1), budget - (i + 1))
        else
          match processLine line h with
          | .error e => .error e
          | .ok h' => headerReadLoop fuel (s.drop (i + 1)) (budget - (i + 1)) h'
      else .error .sizeExceeded
    | none =>
      if s.length ≤ budget then
        if s.length < 1 then .ok (h, [], budget - s.length)
        else
          match processLine s h with
          | .error e => .error e
          | .ok h' => headerReadLoop fuel [] (budget - s.length) h'
      else .error .sizeExceeded

/-- `Header::read_from`: run the loop with a fresh header under the
`MAX_HEADER_SIZE` budget (ample fuel), returning the header and the rest
of the stream. -/
def Header.read_from (s : List Nat) : Except ReadErr (Header × List Nat) :=
  (headerReadLoop (s.length + 1) s MAX_HEADER_SIZE Header.new).map (fun r => (r.1, r.2.1))

/-- The closed `Command` enumeration. -/
inductive Command where
  | connect
  | stomp
  | connected
  | send
  | subscribe
  | unsubscribe
  | ack
  | nack
  | begin
  | commit
  | abort
  | disconnect
  | message
  | receipt
  | error
deriving DecidableEq, Repr

/-- `Display for Command`: the canonical wire string of each variant. -/
def commandBytes : Command → List Nat
  | .connect => strBytes "CONNECT"
  | .stomp => strBytes "STOMP"
  | .connected => strBytes "CONNECTED"
  | .send => strBytes "SEND"
  | .subscribe => strBytes "SUBSCRIBE"
  | .unsubscribe => strBytes "UNSUBSCRIBE"
  | .ack => strBytes "ACK"
  | .nack => strBytes "NACK"
  | .begin => strBytes "BEGIN"
  | .commit => strBytes "COMMIT"
  | .abort => strBytes "ABORT"
  | .disconnect => strBytes "DISCONNECT"
  | .message => strBytes "MESSAGE"
  | .receipt => strBytes "RECEIPT"
  | .error => strBytes "ERROR"

/-- `FromStr for Command`: match against the fifteen canonical strings. -/
def commandFromBytes (s : List Nat) : Option Command :=
  if s = strBytes "CONNECT" then some .connect
  else if s = strBytes "STOMP" then some .stomp
  else if s = strBytes "CONNECTED" then some .connected
  else if s = strBytes "SEND" then some .send
  else if s = strBytes "SUBSCRIBE" then some .subscribe
  else if s = strBytes "UNSUBSCRIBE" then some .unsubscribe
  else if s = strBytes "ACK" then some .ack
  else if s = strBytes "NACK" then some .nack
  else if s = strBytes "BEGIN" then some .begin
  else if s = strBytes "COMMIT" then some .commit
  else if s = strBytes "ABORT" then some .abort
  else if s = strBytes "DISCONNECT" then some .disconnect
  else if s = strBytes "MESSAGE" then some .message
  else if s = strBytes "RECEIPT" then some .receipt
  else if s = strBytes "ERROR" then some .error
  else none

/-- `Frame::read_command`: a delimited line read through `Read::take(1024)`
(which truncates at the budget without failing), then UTF-8 decode, trim,
and command lookup. -/
def readCommand (s : List Nat) : Except ReadErr (Command × List Nat) :=
  let window := s.take MAX_COMMAND_SIZE
  let pair : List Nat × Nat :=
    match firstIdx 10 window with
    | some i => (window.take i, i + 1)
    | none => (window, window.length)
  let rest := s.drop pair.2
  if pair.1.length < 1 then .error (.format "empty command")
  else
    let clean := trimBytes pair.1
    if clean = [] then .error (.format "empty command")
    else
      match commandFromBytes clean with
      | some c => .ok (c, rest)
      | none => .error (.format "invalid command")

/-- One ASCII decimal digit. -/
def isDigit (c : Nat) : Bool := 48 ≤ c && c ≤ 57

/-- Value of a digit string. -/
def digitsToNat (s : List Nat) : Nat := s.foldl (fun acc c => acc * 10 + (c - 48)) 0

/-- Rust `str::parse::<u64>()`: an optional leading plus sign, then at least
one digit, and the value must fit in 64 bits. -/
def parseU64 (s : List Nat) : Option Nat :=
  let t := match s with
    | 43 :: rest => rest
    | _ => s
  if t ≠ [] ∧ t.all isDigit ∧ digitsToNat t < 2 ^ 64 then some (digitsToNat t) else none

/-- The state of `Body`: the borrowed stream, the `limit` countdown and the
`done` flag. -/
structure Body where
  stream : List Nat
  limit : Nat
  done : Bool
deriving DecidableEq, Repr

/-- `Body::new`: scan-bounded mode (`limit = 0`). -/
def Body.new (s : List Nat) : Body := ⟨s, 0, false⟩

/-- `Body::with_length`: length-bounded mode. -/
def Body.with_length (s : List Nat) (contentLength : Nat) : Body := ⟨s, contentLength, false⟩

/-- `Read for Body` with a caller buffer of size `bufLen`, returning the
bytes placed in the buffer and the successor state.  Mirrors the source:
`done` short-circuits; a positive `limit` reads at most `min bufLen limit`
bytes and decrements `limit`; otherwise the buffered bytes are scanned for
the first NUL, and on a hit `min i bufLen` bytes are copied while
`copied + 1` bytes are consumed and `done` is set. -/
def Body.read (b : Body) (bufLen : Nat) : List Nat × Body :=
  if b.done then ([], b)
  else if 0 < b.limit then
    let maxN := min bufLen b.limit
    let out := b.stream.take maxN
    (out, ⟨b.stream.drop out.length, b.limit - out.length, false⟩)
  else
    match firstIdx 0 b.stream with
    | some i =>
      let copied := min i bufLen
      (b.stream.take copied, ⟨b.stream.drop (copied + 1), b.limit, true⟩)
    | none =>
      let copied := min b.stream.length bufLen
      (b.stream.take copied, ⟨b.stream.drop copied, b.limit, false⟩)

/-- Fuelled loop of `Read::read_to_end` over a `Body`, reading with an ample
buffer (at least the whole remaining stream) until a read returns zero
bytes. -/
def bodyReadAllLoop : Nat → Body → List Nat × Body
  | 0, b => ([], b)
  | fuel + 1, b =>
    let r := b.read (b.stream.length + 1)
    if r.1 = [] then ([], r.2)
    else
      let r2 := bodyReadAllLoop fuel r.2
      (r.1 ++ r2.1, r2.2)

/-- `Read::read_to_end` over a `Body` (ample fuel). -/
def bodyReadAll (b : Body) : List Nat × Body := bodyReadAllLoop (b.stream.length + 1) b

/-- Fuelled loop of `std::io::copy(&mut body, ..)`: repeated reads with the
8192-byte copy buffer until a read returns zero bytes. -/
def ioCopyLoop : Nat → Body → List Nat × Body
  | 0, b => ([], b)
  | fuel + 1, b =>
    let r := b.read 8192
    if r.1 = [] then ([], r.2)
    else
      let r2 := ioCopyLoop fuel r.2
      (r.1 ++ r2.1, r2.2)

/-- `std::io::copy` out of a `Body` (ample fuel). -/
def ioCopy (b : Body) : List Nat × Body := ioCopyLoop (b.stream.length + 1) b

/-- Fuelled drain of a raw stream in 8192-byte chunks, modelling
`std::io::copy(&mut self.inner, &mut std::io::sink())`: note it reads the
borrowed inner stream directly, not through `Body::read`. -/
def sinkCopyLoop : Nat → List Nat → List Nat
  | 0, s => s
  | fuel + 1, s => if s = [] then s else sinkCopyLoop fuel (s.drop 8192)

/-- `Body::close`: copy the raw inner stream to a sink (ample fuel); the
`limit` and `done` fields are untouched. -/
def Body.close (b : Body) : Body :=
  { b with stream := sinkCopyLoop (b.stream.length + 1) b.stream }

/-- `Drop for Frame`: `self.body.close().unwrap()`. -/
def frameDrop (b : Body) : Body := b.close

/-- Outcome of `Frame::read_from`: a frame, a returned error, or the
process abort caused by the uncaught `unwrap()` of the `Content-Length`
parse. -/
inductive FrameResult where
  | ok (command : Command) (header : Header) (body : Body)
  | err (e : ReadErr)
  | panicked
deriving DecidableEq, Repr

/-- The `"Content-Length"` key. -/
def contentLengthKey : List Nat := strBytes "Content-Length"

/-- `Frame::read_from`: command, then header block, then body construction
driven by the first `Content-Length` value. -/
def readFrame (s : List Nat) : FrameResult :=
  match readCommand s with
  | .error e => .err e
  | .ok (command, s1) =>
    match Header.read_from s1 with
    | .error e => .err e
    | .ok (header, s2) =>
      match (Header.get_field header contentLengthKey).bind List.head? with
      | some v =>
        match parseU64 v with
        | some n => .ok command header (Body.with_length s2 n)
        | none => .panicked
      | none => .ok command header (Body.new s2)

/-- `Frame::write_to`: command bytes, newline, header block, newline, the
body copied through `std::io::copy`, and the NUL terminator; the second
component is the returned byte count and the third the body state after
the copy. -/
def frameWriteTo (c : Command) (h : Header) (b : Body) : List Nat × Nat × Body :=
  let cmd := commandBytes c
  let hw := Header.write_to h
  let bodyCopy := ioCopy b
  (cmd ++ 10 :: hw.1 ++ 10 :: bodyCopy.1 ++ [0],
   cmd.length + 1 + hw.2 + 1 + bodyCopy.1.length + 1,
   bodyCopy.2)

/-- A header built by a sequence of `add_field` calls. -/
def buildHeader (ps : List (List Nat × List Nat)) : Header :=
  ps.foldl (fun h kv => Header.add_field h kv.1 kv.2) Header.new

/-- One mutating header operation. -/
inductive HOp where
  | add (k v : List Nat)
  | set (k : List Nat) (vs : List (List Nat))
  | remove (k : List Nat)

/-- Apply one header operation. -/
def applyHOp (h : Header) : HOp → Header
  | .add k v => Header.add_field h k v
  | .set k vs => Header.set_field h k vs
  | .remove k => Header.remove_field h k

/-- Apply a sequence of header operations to a header. -/
def applyHOps (ops : List HOp) (h : Header) : Header := ops.foldl applyHOp h

/-- An operation that never installs an empty value vector. -/
def wfHOp : HOp → Bool
  | .set _ vs => !vs.isEmpty
  | _ => true

/-- Strictly sorted key order of a header representation (the `BTreeMap`
invariant). -/
def sortedKeysB : Header → Bool
  | [] => true
  | [_] => true
  | a :: b :: rest => ltKey a.1 b.1 && sortedKeysB (b :: rest)

/-- A header entry fit for an exact round trip: nonempty trim-stable key
and exactly one left-trim-stable value. -/
def goodEntryB (e : List Nat × List (List Nat)) : Bool :=
  decide (e.1 ≠ []) && (trimBytes e.1 == e.1) &&
    match e.2 with
    | [v] => trimStartBytes v == v
    | _ => false

/-- The first `Content-Length` value, when present, declares exactly the
given body length. -/
def clConsistent (h : Header) (bodyLen : Nat) : Bool :=
  match (Header.get_field h contentLengthKey).bind List.head? with
  | none => true
  | some v => parseU64 v == some bodyLen

/-- The values recorded under one key by a list of `add_field` arguments. -/
def valuesOf (k : List Nat) (ps : List (List Nat × List Nat)) : List (List Nat) :=
  (ps.filter (fun kv => kv.1 == k)).map (fun kv => kv.2)

/-- Every present key carries a nonempty value vector. -/
def noEmptyValuesB (h : Header) : Bool := h.all (fun e => !e.2.isEmpty)

/-- The header's entries as `add_field` arguments, each value vector joined
by commas exactly as `Header::write_to` serializes it. -/
def headerPairs (h : Header) : List (List Nat × List Nat) :=
  h.map (fun e => (e.1, joinComma e.2))

theorem encode_nil : encode [] = [] := rfl

theorem encode_cons (c : Nat) (s : List Nat) :
    encode (c :: s) = encChar c ++ encode s := by
  simp [encode]

theorem encChar_ne_nil (c : Nat) : encChar c ≠ [] := by
  unfold encChar
  split
  · simp
  · split
    · simp
    · split
      · simp
      · split <;> simp

theorem encode_eq_nil_iff (s : List Nat) : encode s = [] ↔ s = [] := by
  cases s with
  | nil => simp [encode]
  | cons c rest =>
    simp only [encode_cons]
    constructor
    · intro h
      exact absurd (List.append_eq_nil.mp h).1 (encChar_ne_nil c)
    · intro h; cases h

theorem mem_encode (c : Nat) (s : List Nat) (h : c ∈ encode s) :
    c = 92 ∨ c = 110 ∨ c = 114 ∨ c = 99 ∨
      (c ∈ s ∧ c ≠ 92 ∧ c ≠ 10 ∧ c ≠ 13 ∧ c ≠ 58) := by
  induction s with
  | nil => simp [encode] at h
  | cons a rest ih =>
    rw [encode_cons, List.mem_append] at h
    rcases h with h | h
    · by_cases h92 : a = 92
      · subst h92; simp [encChar] at h; simp [h]
      · by_cases h10 : a = 10
        · subst h10; simp [encChar] at h
          rcases h with h | h <;> simp [h]
        · by_cases h13 : a = 13
          · subst h13; simp [encChar] at h
            rcases h with h | h <;> simp [h]
          · by_cases h58 : a = 58
            · subst h58; simp [encChar] at h
              rcases h with h | h <;> simp [h]
            · simp [encChar, h92, h10, h13, h58] at h
              subst h
              exact Or.inr (Or.inr (Or.inr (Or.inr ⟨by simp, h92, h10, h13, h58⟩)))
    · rcases ih h with h' | h' | h' | h' | ⟨hm, hx⟩
      · exact Or.inl h'
      · exact Or.inr (Or.inl h')
      · exact Or.inr (Or.inr (Or.inl h'))
      · exact Or.inr (Or.inr (Or.inr (Or.inl h')))
      · exact Or.inr (Or.inr (Or.inr (Or.inr ⟨List.mem_cons_of_mem _ hm, hx⟩)))

theorem eol_not_mem_encode (s : List Nat) : 10 ∉ encode s := by
  intro h
  rcases mem_encode 10 s h with h' | h' | h' | h' | ⟨_, _, h', _⟩ <;> simp at h'

theorem cr_not_mem_encode (s : List Nat) : 13 ∉ encode s := by
  intro h
  rcases mem_encode 13 s h with h' | h' | h' | h' | ⟨_, _, _, h', _⟩ <;> simp at h'

theorem colon_not_mem_encode (s : List Nat) : 58 ∉ encode s := by
  intro h
  rcases mem_encode 58 s h with h' | h' | h' | h' | ⟨_, _, _, _, h'⟩ <;> simp at h'

theorem nul_not_mem_encode_of_not_mem (s : List Nat) (hs : 0 ∉ s) : 0 ∉ encode s := by
  intro h
  rcases mem_encode 0 s h with h' | h' | h' | h' | ⟨hm, _⟩
  any_goals simp at h'
  exact hs hm

theorem decode_cons_ne (c : Nat) (s : List Nat) (hc : c ≠ 92) :
    decode (c :: s) = c :: decode s := by
  cases s with
  | nil => simp [decode]
  | cons d rest => rw [decode]; simp [hc]

theorem decode_encode (s : List Nat) : decode (encode s) = s := by
  induction s with
  | nil => simp [encode, decode]
  | cons c rest ih =>
    rw [encode_cons]
    by_cases h92 : c = 92
    · subst h92; simp [encChar, decode, ih]
    · by_cases h10 : c = 10
      · subst h10; simp [encChar, decode, ih]
      · by_cases h13 : c = 13
        · subst h13; simp [encChar, decode, ih]
        · by_cases h58 : c = 58
          · subst h58; simp [encChar, decode, ih]
          · simp only [encChar, if_neg h92, if_neg h10, if_neg h13, if_neg h58,
              List.singleton_append]
            rw [decode_cons_ne c (encode rest) h92, ih]

theorem firstIdx_eq_none_iff (d : Nat) (s : List Nat) : firstIdx d s = none ↔ d ∉ s := by
  induction s with
  | nil => simp [firstIdx]
  | cons c rest ih =>
    by_cases hc : c = d
    · simp [firstIdx, hc]
    · simp [firstIdx, hc, ih, Ne.symm hc]

theorem firstIdx_append_not_mem (d : Nat) (l r : List Nat) (hl : d ∉ l) :
    firstIdx d (l ++ d :: r) = some l.length := by
  induction l with
  | nil => simp [firstIdx]
  | cons c rest ih =>
    have hc : c ≠ d := fun h => hl (h ▸ List.mem_cons_self c rest)
    have hr : d ∉ rest := fun h => hl (List.mem_cons_of_mem c h)
    simp [firstIdx, hc, ih hr]

theorem firstIdx_some_lt (d : Nat) (s : List Nat) (i : Nat) (h : firstIdx d s = some i) :
    i < s.length := by
  induction s generalizing i with
  | nil => simp [firstIdx] at h
  | cons c rest ih =>
    by_cases hc : c = d
    · simp [firstIdx, hc] at h
      simp
      omega
    · simp [firstIdx, hc] at h
      rcases h with ⟨j, hj, rfl⟩
      have := ih j hj
      simp
      omega

theorem firstIdx_take (d : Nat) (s : List Nat) (i n : Nat) (h : firstIdx d s = some i)
    (hn : i < n) : firstIdx d (s.take n) = some i := by
  induction s generalizing i n with
  | nil => simp [firstIdx] at h
  | cons c rest ih =>
    cases n with
    | zero => omega
    | succ m =>
      by_cases hc : c = d
      · simp [firstIdx, hc] at h ⊢
        omega
      · simp [firstIdx, hc] at h ⊢
        rcases h with ⟨j, hj, rfl⟩
        exact ⟨j, ih j m hj (by omega), rfl⟩

theorem splitOnByte_not_mem (d : Nat) (l : List Nat) (hl : d ∉ l) :
    splitOnByte d l = [l] := by
  induction l with
  | nil => simp [splitOnByte]
  | cons c rest ih =>
    have hc : c ≠ d := fun h => hl (h ▸ List.mem_cons_self c rest)
    have hr : d ∉ rest := fun h => hl (List.mem_cons_of_mem c h)
    simp [splitOnByte, ih hr, hc]

theorem splitOnByte_append (d : Nat) (a b : List Nat) (ha : d ∉ a) :
    splitOnByte d (a ++ d :: b) = a :: splitOnByte d b := by
  induction a with
  | nil =>
    simp only [List.nil_append, splitOnByte]
    cases hb : splitOnByte d b with
    | nil =>
      exfalso
      induction b with
      | nil => simp [splitOnByte] at hb
      | cons x xs ihb =>
        rw [splitOnByte] at hb
        rcases hx : splitOnByte d xs with _ | ⟨g, gs⟩
        · rw [hx] at hb; simp at hb
        · rw [hx] at hb
          by_cases hxd : x = d <;> simp [hxd] at hb
    | cons g gs => simp
  | cons c rest ih =>
    have hc : c ≠ d := fun h => ha (h ▸ List.mem_cons_self c rest)
    have hr : d ∉ rest := fun h => ha (List.mem_cons_of_mem c h)
    rw [List.cons_append, splitOnByte, ih hr]
    simp [hc]

theorem dropWhile_of_forall_not {p : Nat → Bool} (l : List Nat)
    (h : ∀ x ∈ l, p x = false) : l.dropWhile p = l := by
  cases l with
  | nil => simp
  | cons c rest => simp [List.dropWhile_cons, h c (List.mem_cons_self c rest)]

theorem trimEndCR_no_cr (l : List Nat) (h : 13 ∉ l) : trimEndCR l = l := by
  unfold trimEndCR
  rw [dropWhile_of_forall_not]
  · simp
  · intro x hx
    have : x ∈ l := List.mem_reverse.mp hx
    simp [decide_eq_false_iff_not]
    intro he
    exact h (he ▸ this)

theorem trimStart_cons_not_ws (c : Nat) (l : List Nat) (h : isWsByte c = false) :
    trimStartBytes (c :: l) = c :: l := by
  simp [trimStartBytes, List.dropWhile_cons, h]

theorem ltKey_irrefl (k : List Nat) : ltKey k k = false := by
  induction k with
  | nil => rfl
  | cons c rest ih => simp [ltKey, ih]

theorem ltKey_asymm (a b : List Nat) (h : ltKey a b = true) : ltKey b a = false := by
  induction a generalizing b with
  | nil =>
    cases b with
    | nil => simp [ltKey] at h
    | cons x xs => rfl
  | cons c rest ih =>
    cases b with
    | nil => simp [ltKey] at h
    | cons x xs =>
      by_cases hcx : c < x
      · have hxc : ¬ x < c := Nat.lt_asymm hcx
        simp [ltKey, hxc, hcx]
      · by_cases hxc : x < c
        · simp [ltKey, hcx, hxc] at h
        · have hce : c = x := by omega
          subst hce
          simp [ltKey, hcx] at h ⊢
          exact ih xs h

theorem ltKey_total (a b : List Nat) (h : a ≠ b) :
    ltKey a b = true ∨ ltKey b a = true := by
  induction a generalizing b with
  | nil =>
    cases b with
    | nil => exact absurd rfl h
    | cons x xs => left; rfl
  | cons c rest ih =>
    cases b with
    | nil => right; rfl
    | cons x xs =>
      by_cases hcx : c < x
      · left; simp [ltKey, hcx]
      · by_cases hxc : x < c
        · right; simp [ltKey, hxc]
        · have hce : c = x := by omega
          subst hce
          have hne : rest ≠ xs := by
            intro he; exact h (by rw [he])
          rcases ih xs hne with h' | h'
          · left; simp [ltKey, hcx, h']
          · right; simp [ltKey, hcx, h']

theorem ltKey_trans (a b c : List Nat) (hab : ltKey a b = true)
    (hbc : ltKey b c = true) : ltKey a c = true := by
  induction a generalizing b c with
  | nil =>
    cases c with
    | nil =>
      cases b with
      | nil => simp [ltKey] at hab
      | cons y ys => simp [ltKey] at hbc
    | cons z zs => rfl
  | cons x xs ih =>
    cases b with
    | nil => simp [ltKey] at hab
    | cons y ys =>
      cases c with
      | nil => simp [ltKey] at hbc
      | cons z zs =>
        simp only [ltKey] at hab hbc ⊢
        by_cases hxy : x < y
        · by_cases hyz : y < z
          · have hxz : x < z := Nat.lt_trans hxy hyz
            simp [hxz]
          · by_cases hzy : z < y
            · simp [hyz, hzy] at hbc
            · have : y = z := by omega
              subst this
              simp [hxy]
        · by_cases hyx : y < x
          · simp [hxy, hyx] at hab
          · have hexy : x = y := by omega
            subst hexy
            simp only [if_neg hxy, Nat.lt_irrefl, if_neg (by omega : ¬ x < x)] at hab
            by_cases hxz : x < z
            · simp [hxz]
            · by_cases hzx : z < x
              · simp [hxz, hzx] at hbc
              · have : x = z := by omega
                subst this
                simp only [Nat.lt_irrefl, if_neg (by omega : ¬ x < x)] at hbc ⊢
                exact ih ys zs hab hbc

theorem ltKey_ne (a b : List Nat) (h : ltKey a b = true) : a ≠ b := by
  intro he
  subst he
  rw [ltKey_irrefl] at h
  cases h

theorem get_field_cons (k : List Nat) (e : List Nat × List (List Nat)) (t : Header) :
    Header.get_field (e :: t) k =
      if k = e.1 then some e.2 else Header.get_field t k := by
  cases e
  simp [Header.get_field]

theorem add_field_cons (e : List Nat × List (List Nat)) (t : Header) (k v : List Nat) :
    Header.add_field (e :: t) k v =
      if ltKey k e.1 = true then (k, [v]) :: e :: t
      else if k = e.1 then (e.1, e.2 ++ [v]) :: t
      else e :: Header.add_field t k v := by
  cases e
  simp [Header.add_field]

theorem get_field_eq_none (h : Header) (k : List Nat) (hk : ∀ e ∈ h, k ≠ e.1) :
    Header.get_field h k = none := by
  induction h with
  | nil => rfl
  | cons e t ih =>
    rw [get_field_cons, if_neg (hk e (List.mem_cons_self e t))]
    exact ih fun e' he' => hk e' (List.mem_cons_of_mem e he')

theorem mem_add_field (h : Header) (k v : List Nat) (x : List Nat × List (List Nat))
    (hx : x ∈ Header.add_field h k v) : (∃ y ∈ h, x.1 = y.1) ∨ x.1 = k := by
  induction h with
  | nil =>
    simp [Header.add_field] at hx
    simp [hx]
  | cons e t ih =>
    rw [add_field_cons] at hx
    by_cases hlt : ltKey k e.1 = true
    · rw [if_pos hlt] at hx
      rcases List.mem_cons.mp hx with hx | hx
      · right; simp [hx]
      · rcases List.mem_cons.mp hx with hx | hx
        · left; exact ⟨e, List.mem_cons_self e t, by simp [hx]⟩
        · left; exact ⟨x, List.mem_cons_of_mem e hx, rfl⟩
    · rw [if_neg hlt] at hx
      by_cases heq : k = e.1
      · rw [if_pos heq] at hx
        rcases List.mem_cons.mp hx with hx | hx
        · left; exact ⟨e, List.mem_cons_self e t, by simp [hx]⟩
        · left; exact ⟨x, List.mem_cons_of_mem e hx, rfl⟩
      · rw [if_neg heq] at hx
        rcases List.mem_cons.mp hx with hx | hx
        · left; exact ⟨e, List.mem_cons_self e t, by simp [hx]⟩
        · rcases ih hx with ⟨y, hy, hxy⟩ | hxk
          · left; exact ⟨y, List.mem_cons_of_mem e hy, hxy⟩
          · right; exact hxk

theorem add_field_pairwise (h : Header) (k v : List Nat)
    (hp : List.Pairwise (fun a b => ltKey a.1 b.1 = true) h) :
    List.Pairwise (fun a b => ltKey a.1 b.1 = true) (Header.add_field h k v) := by
  induction h with
  | nil => simp [Header.add_field]
  | cons e t ih =>
    rw [List.pairwise_cons] at hp
    obtain ⟨he, ht⟩ := hp
    rw [add_field_cons]
    by_cases hlt : ltKey k e.1 = true
    · rw [if_pos hlt]
      rw [List.pairwise_cons]
      constructor
      · intro x hx
        rcases List.mem_cons.mp hx with hx | hx
        · simp [hx, hlt]
        · exact ltKey_trans _ _ _ hlt (he x hx)
      · rw [List.pairwise_cons]
        exact ⟨he, ht⟩
    · rw [if_neg hlt]
      by_cases heq : k = e.1
      · rw [if_pos heq, List.pairwise_cons]
        constructor
        · intro x hx
          exact he x hx
        · exact ht
      · rw [if_neg heq, List.pairwise_cons]
        constructor
        · intro x hx
          rcases mem_add_field t k v x hx with ⟨y, hy, hxy⟩ | hxk
          · rw [hxy]; exact he y hy
          · rw [hxk]
            rcases ltKey_total k e.1 heq with h' | h'
            · exact absurd h' hlt
            · exact h'
        · exact ih ht

theorem get_field_add (h : Header) (k v : List Nat)
    (hp : List.Pairwise (fun a b => ltKey a.1 b.1 = true) h) (k' : List Nat) :
    Header.get_field (Header.add_field h k v) k' =
      if k' = k then some ((Header.get_field h k).getD [] ++ [v])
      else Header.get_field h k' := by
  induction h with
  | nil =>
    simp only [Header.add_field, Header.get_field]
    by_cases hk : k' = k <;> simp [hk]
  | cons e t ih =>
    rw [List.pairwise_cons] at hp
    obtain ⟨he, ht⟩ := hp
    rw [add_field_cons]
    by_cases hlt : ltKey k e.1 = true
    · rw [if_pos hlt]
      have hnone : Header.get_field (e :: t) k = none := by
        apply get_field_eq_none
        intro e' he'
        rcases List.mem_cons.mp he' with he' | he'
        · rw [he']
          exact ltKey_ne _ _ hlt
        · exact ltKey_ne _ _ (ltKey_trans _ _ _ hlt (he e' he'))
      by_cases hk : k' = k
      · rw [if_pos hk, get_field_cons, if_pos hk, hnone]
        simp
      · rw [if_neg hk, get_field_cons]
        simp only [if_neg hk]
    · rw [if_neg hlt]
      by_cases heq : k = e.1
      · rw [if_pos heq]
        by_cases hk : k' = k
        · rw [if_pos hk, get_field_cons, if_pos (hk.trans heq), get_field_cons,
            if_pos heq]
          simp
        · have hke : ¬ k' = e.1 := fun hh => hk (heq ▸ hh)
          rw [if_neg hk, get_field_cons, if_neg hke, get_field_cons, if_neg hke]
      · rw [if_neg heq]
        by_cases hk : k' = e.1
        · have hne : ¬ k' = k := fun hh => heq ((hh.symm.trans hk))
          rw [get_field_cons, if_pos hk, if_neg hne, get_field_cons, if_pos hk]
        · rw [get_field_cons, if_neg hk, ih ht]
          by_cases hk2 : k' = k
          · rw [if_pos hk2, if_pos hk2, get_field_cons, if_neg heq]
          · rw [if_neg hk2, if_neg hk2, get_field_cons, if_neg hk]

theorem header_ext (h1 h2 : Header)
    (hp1 : List.Pairwise (fun a b => ltKey a.1 b.1 = true) h1)
    (hp2 : List.Pairwise (fun a b => ltKey a.1 b.1 = true) h2)
    (hg : ∀ k, Header.get_field h1 k = Header.get_field h2 k) : h1 = h2 := by
  induction h1 generalizing h2 with
  | nil =>
    cases h2 with
    | nil => rfl
    | cons e2 t2 =>
      exfalso
      have hx := hg e2.1
      rw [get_field_cons, if_pos rfl] at hx
      exact Option.noConfusion hx
  | cons e1 t1 ih =>
    cases h2 with
    | nil =>
      exfalso
      have hx := hg e1.1
      rw [get_field_cons, if_pos rfl] at hx
      exact Option.noConfusion hx
    | cons e2 t2 =>
      rw [List.pairwise_cons] at hp1 hp2
      obtain ⟨he1, ht1⟩ := hp1
      obtain ⟨he2, ht2⟩ := hp2
      have hkeys : e1.1 = e2.1 := by
        by_contra hne
        rcases ltKey_total e1.1 e2.1 hne with h' | h'
        · have hnone : Header.get_field (e2 :: t2) e1.1 = none := by
            apply get_field_eq_none
            intro e' he'
            rcases List.mem_cons.mp he' with he' | he'
            · rw [he']; exact ltKey_ne _ _ h'
            · exact ltKey_ne _ _ (ltKey_trans _ _ _ h' (he2 e' he'))
          have hx := hg e1.1
          rw [hnone, get_field_cons, if_pos rfl] at hx
          exact Option.noConfusion hx
        · have hnone : Header.get_field (e1 :: t1) e2.1 = none := by
            apply get_field_eq_none
            intro e' he'
            rcases List.mem_cons.mp he' with he' | he'
            · rw [he']; exact fun hh => hne hh.symm
            · exact ltKey_ne _ _ (ltKey_trans _ _ _ h' (he1 e' he'))
          have hx := hg e2.1
          rw [hnone, get_field_cons, if_pos rfl] at hx
          exact Option.noConfusion hx.symm
      have hvals : e1.2 = e2.2 := by
        have hx := hg e1.1
        rw [get_field_cons, if_pos rfl, get_field_cons, if_pos hkeys] at hx
        exact Option.some.inj hx
      have htails : t1 = t2 := by
        apply ih t2 ht1 ht2
        intro k
        by_cases hk : k = e1.1
        · have hn1 : Header.get_field t1 k = none :=
            get_field_eq_none t1 k fun e' he' => hk ▸ ltKey_ne _ _ (he1 e' he')
          have hn2 : Header.get_field t2 k = none := by
            apply get_field_eq_none
            intro e' he'
            rw [hk, hkeys]
            exact ltKey_ne _ _ (he2 e' he')
          rw [hn1, hn2]
        · have hx := hg k
          have hk2 : ¬ k = e2.1 := fun hh => hk (hh.trans hkeys.symm)
          rw [get_field_cons, if_neg hk, get_field_cons, if_neg hk2] at hx
          exact hx
      have he12 : e1 = e2 := by
        calc e1 = (e1.1, e1.2) := rfl
          _ = (e2.1, e2.2) := by rw [hkeys, hvals]
          _ = e2 := rfl
      rw [he12, htails]

theorem sortedKeysB_iff_pairwise (h : Header) :
    sortedKeysB h = true ↔ List.Pairwise (fun a b => ltKey a.1 b.1 = true) h := by
  induction h with
  | nil => simp [sortedKeysB]
  | cons a t ih =>
    cases t with
    | nil => simp [sortedKeysB]
    | cons b t' =>
      rw [sortedKeysB, List.pairwise_cons, Bool.and_eq_true, ih, List.pairwise_cons]
      constructor
      · rintro ⟨hab, hb, ht⟩
        refine ⟨?_, hb, ht⟩
        intro x hx
        rcases List.mem_cons.mp hx with hx | hx
        · rw [hx]; exact hab
        · exact ltKey_trans _ _ _ hab (hb x hx)
      · rintro ⟨ha, hb, ht⟩
        exact ⟨ha b (List.mem_cons_self b t'), hb, ht⟩

theorem noEmpty_get (h : Header) (k : List Nat) (vs : List (List Nat))
    (hne : noEmptyValuesB h = true) (hg : Header.get_field h k = some vs) : vs ≠ [] := by
  induction h with
  | nil => exact Option.noConfusion hg
  | cons e t ih =>
    rw [noEmptyValuesB, List.all_cons, Bool.and_eq_true] at hne
    rw [get_field_cons] at hg
    by_cases hk : k = e.1
    · rw [if_pos hk] at hg
      have hv := Option.some.inj hg
      intro hnil
      rw [hv, hnil] at hne
      simp at hne
    · rw [if_neg hk] at hg
      exact ih hne.2 hg

theorem noEmpty_add (h : Header) (k v : List Nat) (hne : noEmptyValuesB h = true) :
    noEmptyValuesB (Header.add_field h k v) = true := by
  induction h with
  | nil => simp [Header.add_field, noEmptyValuesB]
  | cons e t ih =>
    rw [noEmptyValuesB, List.all_cons, Bool.and_eq_true] at hne
    rw [add_field_cons]
    by_cases hlt : ltKey k e.1 = true
    · rw [if_pos hlt]
      rw [noEmptyValuesB, List.all_cons, List.all_cons]
      simp only [Bool.and_eq_true]
      exact ⟨by simp, hne.1, by simpa [noEmptyValuesB] using hne.2⟩
    · rw [if_neg hlt]
      by_cases heq : k = e.1
      · rw [if_pos heq]
        rw [noEmptyValuesB, List.all_cons]
        simp only [Bool.and_eq_true]
        exact ⟨by simp, by simpa [noEmptyValuesB] using hne.2⟩
      · rw [if_neg heq]
        rw [noEmptyValuesB, List.all_cons]
        simp only [Bool.and_eq_true]
        exact ⟨hne.1, by simpa [noEmptyValuesB] using ih hne.2⟩

theorem noEmpty_set (h : Header) (k : List Nat) (vs : List (List Nat))
    (hvs : vs ≠ []) (hne : noEmptyValuesB h = true) :
    noEmptyValuesB (Header.set_field h k vs) = true := by
  induction h with
  | nil =>
    simp [Header.set_field, noEmptyValuesB, hvs]
  | cons e t ih =>
    rw [noEmptyValuesB, List.all_cons, Bool.and_eq_true] at hne
    cases e with
    | mk k' vs' =>
      rw [Header.set_field]
      by_cases hlt : ltKey k k' = true
      · simp only [if_pos hlt]
        rw [noEmptyValuesB, List.all_cons, List.all_cons]
        simp only [Bool.and_eq_true]
        exact ⟨by simp [hvs], hne.1, by simpa [noEmptyValuesB] using hne.2⟩
      · simp only [if_neg hlt]
        by_cases heq : k = k'
        · simp only [if_pos heq]
          rw [noEmptyValuesB, List.all_cons]
          simp only [Bool.and_eq_true]
          exact ⟨by simp [hvs], by simpa [noEmptyValuesB] using hne.2⟩
        · simp only [if_neg heq]
          rw [noEmptyValuesB, List.all_cons]
          simp only [Bool.and_eq_true]
          exact ⟨hne.1, by simpa [noEmptyValuesB] using ih hne.2⟩

theorem noEmpty_remove (h : Header) (k : List Nat) (hne : noEmptyValuesB h = true) :
    noEmptyValuesB (Header.remove_field h k) = true := by
  induction h with
  | nil => simp [Header.remove_field, noEmptyValuesB]
  | cons e t ih =>
    rw [noEmptyValuesB, List.all_cons, Bool.and_eq_true] at hne
    cases e with
    | mk k' vs' =>
      rw [Header.remove_field]
      by_cases heq : k = k'
      · simp only [if_pos heq]
        simpa [noEmptyValuesB] using hne.2
      · simp only [if_neg heq]
        rw [noEmptyValuesB, List.all_cons]
        simp only [Bool.and_eq_true]
        exact ⟨hne.1, by simpa [noEmptyValuesB] using ih hne.2⟩

theorem valuesOf_cons (k k0 v0 : List Nat) (ps : List (List Nat × List Nat)) :
    valuesOf k ((k0, v0) :: ps) =
      if k0 = k then v0 :: valuesOf k ps else valuesOf k ps := by
  by_cases hk : k0 = k <;> simp [valuesOf, List.filter_cons, hk]

theorem valuesOf_eq_nil (k : List Nat) (ps : List (List Nat × List Nat))
    (hk : ∀ x ∈ ps, x.1 ≠ k) : valuesOf k ps = [] := by
  induction ps with
  | nil => rfl
  | cons p t ih =>
    cases p with
    | mk k0 v0 =>
      rw [valuesOf_cons, if_neg (hk (k0, v0) (List.mem_cons_self _ t))]
      exact ih fun x hx => hk x (List.mem_cons_of_mem _ hx)

theorem foldl_add_pairwise (ps : List (List Nat × List Nat)) (h : Header)
    (hp : List.Pairwise (fun a b => ltKey a.1 b.1 = true) h) :
    List.Pairwise (fun a b => ltKey a.1 b.1 = true)
      (ps.foldl (fun acc kv => Header.add_field acc kv.1 kv.2) h) := by
  induction ps generalizing h with
  | nil => exact hp
  | cons p t ih =>
    rw [List.foldl_cons]
    exact ih _ (add_field_pairwise h p.1 p.2 hp)

theorem foldl_add_noEmpty (ps : List (List Nat × List Nat)) (h : Header)
    (hne : noEmptyValuesB h = true) :
    noEmptyValuesB (ps.foldl (fun acc kv => Header.add_field acc kv.1 kv.2) h) = true := by
  induction ps generalizing h with
  | nil => exact hne
  | cons p t ih =>
    rw [List.foldl_cons]
    exact ih _ (noEmpty_add h p.1 p.2 hne)

theorem get_field_foldl_add (ps : List (List Nat × List Nat)) (h : Header)
    (hp : List.Pairwise (fun a b => ltKey a.1 b.1 = true) h)
    (hne : noEmptyValuesB h = true) (k : List Nat) :
    Header.get_field (ps.foldl (fun acc kv => Header.add_field acc kv.1 kv.2) h) k =
      (if ((Header.get_field h k).getD [] ++ valuesOf k ps) = [] then none
       else some ((Header.get_field h k).getD [] ++ valuesOf k ps)) := by
  induction ps generalizing h with
  | nil =>
    simp only [List.foldl_nil, valuesOf, List.filter_nil, List.map_nil, List.append_nil]
    cases hg : Header.get_field h k with
    | none => simp
    | some vs =>
      have hv : vs ≠ [] := noEmpty_get h k vs hne hg
      simp [hv]
  | cons p t ih =>
    cases p with
    | mk k0 v0 =>
      rw [List.foldl_cons, ih (Header.add_field h k0 v0)
        (add_field_pairwise h k0 v0 hp) (noEmpty_add h k0 v0 hne),
        get_field_add h k0 v0 hp, valuesOf_cons]
      by_cases hk : k = k0
      · subst hk
        simp [List.append_assoc]
      · simp only [if_neg hk, if_neg (show ¬ k0 = k from fun hh => hk hh.symm)]

theorem get_field_buildHeader (ps : List (List Nat × List Nat)) (k : List Nat) :
    Header.get_field (buildHeader ps) k =
      (if valuesOf k ps = [] then none else some (valuesOf k ps)) := by
  have := get_field_foldl_add ps Header.new (by constructor) (by rfl) k
  simpa [buildHeader, Header.new, Header.get_field] using this

theorem buildHeader_pairwise (ps : List (List Nat × List Nat)) :
    List.Pairwise (fun a b => ltKey a.1 b.1 = true) (buildHeader ps) :=
  foldl_add_pairwise ps Header.new (by constructor)

theorem valuesOf_perm (k : List Nat) (ps qs : List (List Nat × List Nat))
    (hperm : ps.Perm qs) : (valuesOf k ps).Perm (valuesOf k qs) :=
  (hperm.filter _).map _

theorem valuesOf_length_le_one (k : List Nat) (ps : List (List Nat × List Nat))
    (hnd : (ps.map Prod.fst).Nodup) : (valuesOf k ps).length ≤ 1 := by
  induction ps with
  | nil => simp [valuesOf]
  | cons p t ih =>
    cases p with
    | mk k0 v0 =>
      rw [List.map_cons, List.nodup_cons] at hnd
      rw [valuesOf_cons]
      by_cases hk : k0 = k
      · rw [if_pos hk]
        have hnil : valuesOf k t = [] := by
          apply valuesOf_eq_nil
          intro x hx hxk
          apply hnd.1
          show k0 ∈ List.map Prod.fst t
          rw [hk, ← hxk]
          exact List.mem_map_of_mem Prod.fst hx
        rw [hnil]
        simp
      · rw [if_neg hk]
        exact ih hnd.2

theorem perm_eq_of_length_le_one {α : Type} (l l' : List α) (hperm : l.Perm l')
    (hlen : l.length ≤ 1) : l = l' := by
  cases l with
  | nil => exact ((hperm.symm).eq_nil).symm
  | cons a t =>
    cases t with
    | nil =>
      rcases List.length_eq_one.mp hperm.length_eq.symm with ⟨b, hb⟩
      have ha : a ∈ l' := hperm.mem_iff.mp (List.mem_singleton_self a)
      rw [hb, List.mem_singleton] at ha
      rw [hb, ha]
    | cons b t' => simp at hlen

theorem get_field_mem (h : Header) (k : List Nat) (vs : List (List Nat))
    (hg : Header.get_field h k = some vs) : (k, vs) ∈ h := by
  induction h with
  | nil => exact Option.noConfusion hg
  | cons e t ih =>
    rw [get_field_cons] at hg
    by_cases hk : k = e.1
    · rw [if_pos hk] at hg
      have hv := Option.some.inj hg
      have hke : (k, vs) = e := by rw [hk, ← hv]
      rw [hke]
      exact List.mem_cons_self e t
    · rw [if_neg hk] at hg
      exact List.mem_cons_of_mem e (ih hg)

theorem take_len_append (l r : List Nat) : (l ++ r).take l.length = l := by
  induction l with
  | nil => simp
  | cons c t ih => simp [ih]

theorem drop_len_append (l r : List Nat) : (l ++ r).drop l.length = r := by
  induction l with
  | nil => simp
  | cons c t ih => simp [ih]

theorem drop_len_succ_append (l : List Nat) (a : Nat) (r : List Nat) :
    (l ++ a :: r).drop (l.length + 1) = r := by
  induction l with
  | nil => simp
  | cons c t ih => simpa using ih

theorem headerPairs_cons (e : List Nat × List (List Nat)) (t : Header) :
    headerPairs (e :: t) = (e.1, joinComma e.2) :: headerPairs t := by
  simp [headerPairs]

theorem valuesOf_headerPairs (h : Header) (k : List Nat)
    (hp : List.Pairwise (fun a b => ltKey a.1 b.1 = true) h) :
    valuesOf k (headerPairs h) =
      (Header.get_field h k).elim [] (fun vs => [joinComma vs]) := by
  induction h with
  | nil => simp [headerPairs, valuesOf, Header.get_field]
  | cons e t ih =>
    rw [List.pairwise_cons] at hp
    obtain ⟨he, ht⟩ := hp
    rw [headerPairs_cons, valuesOf_cons, get_field_cons]
    by_cases hk : e.1 = k
    · rw [if_pos hk, if_pos hk.symm]
      have hnil : valuesOf k (headerPairs t) = [] := by
        apply valuesOf_eq_nil
        intro x hx hxk
        rw [headerPairs, List.mem_map] at hx
        rcases hx with ⟨y, hy, hxy⟩
        have hyk : y.1 = k := by rw [← hxy] at hxk; exact hxk
        have hlt := he y hy
        rw [hyk, ← hk] at hlt
        exact absurd rfl (ltKey_ne _ _ hlt)
      rw [hnil]
      simp
    · rw [if_neg hk, if_neg (fun hh => hk hh.symm)]
      exact ih ht

theorem buildHeader_headerPairs (h : Header)
    (hp : List.Pairwise (fun a b => ltKey a.1 b.1 = true) h)
    (hs : ∀ e ∈ h, ∃ v, e.2 = [v]) :
    buildHeader (headerPairs h) = h := by
  apply header_ext _ _ (buildHeader_pairwise _) hp
  intro k
  rw [get_field_buildHeader, valuesOf_headerPairs h k hp]
  cases hg : Header.get_field h k with
  | none => simp
  | some vs =>
    rcases hs (k, vs) (get_field_mem h k vs hg) with ⟨v, hv⟩
    subst hv
    simp [joinComma]

theorem body_read_done (b : Body) (n : Nat) (hd : b.done = true) :
    b.read n = ([], b) := by
  unfold Body.read
  rw [if_pos hd]

theorem bodyReadAllLoop_scan (pre post : List Nat) (fuel : Nat) (h0 : 0 ∉ pre)
    (hf : 2 ≤ fuel) :
    bodyReadAllLoop fuel ⟨pre ++ 0 :: post, 0, false⟩ = (pre, ⟨post, 0, true⟩) := by
  cases fuel with
  | zero => omega
  | succ f =>
    rw [bodyReadAllLoop]
    have hle : pre.length ≤ (pre ++ 0 :: post).length + 1 := by
      simp
      omega
    have hmin : min pre.length ((pre ++ 0 :: post).length + 1) = pre.length :=
      min_eq_left hle
    have ht : (pre ++ 0 :: post).take pre.length = pre := take_len_append pre (0 :: post)
    have hd : (pre ++ 0 :: post).drop (pre.length + 1) = post :=
      drop_len_succ_append pre 0 post
    have hread : Body.read ⟨pre ++ 0 :: post, 0, false⟩ ((pre ++ 0 :: post).length + 1) =
        (pre, ⟨post, 0, true⟩) := by
      simp only [Body.read, firstIdx_append_not_mem 0 pre post h0]
      simp
      refine ⟨?_, ?_⟩
      · rw [min_eq_left (by omega : pre.length ≤ pre.length + (post.length + 1) + 1)]
        exact ht
      · rw [min_eq_left (by omega : pre.length ≤ pre.length + (post.length + 1) + 1)]
        exact hd
    cases hp : pre with
    | nil =>
      subst hp
      simp only [hread]
      simp
    | cons a pr =>
      rw [← hp]
      simp only [hread]
      rw [if_neg (by rw [hp]; simp)]
      cases f with
      | zero => omega
      | succ f' =>
        rw [bodyReadAllLoop]
        rw [body_read_done ⟨post, 0, true⟩ _ rfl]
        simp

theorem bodyReadAll_scan (pre post : List Nat) (h0 : 0 ∉ pre) :
    bodyReadAll ⟨pre ++ 0 :: post, 0, false⟩ = (pre, ⟨post, 0, true⟩) := by
  apply bodyReadAllLoop_scan pre post _ h0
  show 2 ≤ (pre ++ 0 :: post).length + 1
  simp only [List.length_append, List.length_cons]
  omega

theorem bodyReadAllLoop_limit (pre post : List Nat) (fuel : Nat) (hpre : pre ≠ [])
    (hf : 2 ≤ fuel) :
    bodyReadAllLoop fuel ⟨pre ++ 0 :: post, pre.length, false⟩ = (pre, ⟨post, 0, true⟩) := by
  cases fuel with
  | zero => omega
  | succ f =>
    rw [bodyReadAllLoop]
    have hlpos : 0 < pre.length := List.length_pos.mpr hpre
    have hle : pre.length ≤ (pre ++ 0 :: post).length + 1 := by
      simp
      omega
    have hmin : min ((pre ++ 0 :: post).length + 1) pre.length = pre.length :=
      min_eq_right hle
    have ht : (pre ++ 0 :: post).take pre.length = pre := take_len_append pre (0 :: post)
    have hd : (pre ++ 0 :: post).drop pre.length = 0 :: post :=
      drop_len_append pre (0 :: post)
    have hread : Body.read ⟨pre ++ 0 :: post, pre.length, false⟩
        ((pre ++ 0 :: post).length + 1) = (pre, ⟨0 :: post, 0, false⟩) := by
      simp only [Body.read]
      simp [hlpos]
      refine ⟨?_, ?_, ?_⟩
      · rw [min_eq_right (by omega : pre.length ≤ pre.length + (post.length + 1) + 1)]
        exact ht
      · rw [min_eq_right (by omega : pre.length ≤ pre.length + (post.length + 1) + 1)]
        exact hd
      · rw [min_eq_right (by omega : pre.length ≤ pre.length + (post.length + 1) + 1)]
        omega
    simp only [hread]
    rw [if_neg hpre]
    cases f with
    | zero => omega
    | succ f' =>
      rw [bodyReadAllLoop]
      have hread2 : Body.read ⟨0 :: post, 0, false⟩ ((0 :: post).length + 1) =
          ([], ⟨post, 0, true⟩) := by
        simp [Body.read, show firstIdx 0 (0 :: post) = some 0 from by simp [firstIdx]]
      simp only [hread2]
      simp

theorem bodyReadAll_with_length (pre post : List Nat) :
    bodyReadAll (Body.with_length (pre ++ 0 :: post) pre.length) = (pre, ⟨post, 0, true⟩) := by
  cases hp : pre with
  | nil =>
    subst hp
    exact bodyReadAll_scan [] post (by simp)
  | cons a pr =>
    rw [← hp]
    apply bodyReadAllLoop_limit pre post _ (by rw [hp]; simp)
    show 2 ≤ (pre ++ 0 :: post).length + 1
    simp only [List.length_append, List.length_cons]
    omega

theorem ioCopyLoop_no_nul (fuel : Nat) (s : List Nat) (h0 : 0 ∉ s)
    (hf : s.length < fuel) : ioCopyLoop fuel ⟨s, 0, false⟩ = (s, ⟨[], 0, false⟩) := by
  induction fuel generalizing s with
  | zero => omega
  | succ f ih =>
    rw [ioCopyLoop]
    have hread : Body.read ⟨s, 0, false⟩ 8192 =
        (s.take (min s.length 8192), ⟨s.drop (min s.length 8192), 0, false⟩) := by
      simp [Body.read, (firstIdx_eq_none_iff 0 s).mpr h0]
    simp only [hread]
    cases hs : s with
    | nil =>
      subst hs
      simp
    | cons a t =>
      rw [← hs]
      have hpos : 0 < s.length := by rw [hs]; simp
      have hne : s ≠ [] := by rw [hs]; simp
      rcases Nat.le_total s.length 8192 with hc | hc
      · rw [min_eq_left hc, List.take_length, List.drop_length, if_neg hne]
        rw [ih [] (by simp) (by simp; omega)]
        simp
      · rw [min_eq_right hc]
        rw [if_neg (by
          intro he
          have hlen := congrArg List.length he
          rw [List.length_take, min_eq_left hc] at hlen
          simp at hlen)]
        have hrec : (s.drop 8192).length < f := by
          rw [List.length_drop]
          omega
        rw [ih (s.drop 8192) (fun hm => h0 (List.mem_of_mem_drop hm)) hrec]
        rw [List.take_append_drop]

theorem ioCopy_no_nul (s : List Nat) (h0 : 0 ∉ s) :
    ioCopy (Body.new s) = (s, ⟨[], 0, false⟩) := by
  apply ioCopyLoop_no_nul _ s h0
  show s.length < s.length + 1
  omega

theorem sinkCopyLoop_nil (fuel : Nat) (s : List Nat) (hf : s.length < fuel) :
    sinkCopyLoop fuel s = [] := by
  induction fuel generalizing s with
  | zero => omega
  | succ f ih =>
    rw [sinkCopyLoop]
    cases hs : s with
    | nil => simp
    | cons a t =>
      rw [← hs, if_neg (by rw [hs]; simp)]
      apply ih
      rw [List.length_drop]
      rw [hs] at hf ⊢
      simp at hf ⊢
      omega

theorem body_close_eq (b : Body) : Body.close b = ⟨[], b.limit, b.done⟩ := by
  unfold Body.close
  rw [sinkCopyLoop_nil _ _ (by omega)]

theorem trimStart_cons_ws (c : Nat) (l : List Nat) (h : isWsByte c = true) :
    trimStartBytes (c :: l) = trimStartBytes l := by
  simp [trimStartBytes, List.dropWhile_cons, h]

theorem headerReadLoop_nil (fuel budget : Nat) (h : Header) :
    headerReadLoop (fuel + 1) [] budget h = .ok (h, [], budget) := by
  simp [headerReadLoop, firstIdx]

theorem headerReadLoop_blank (fuel : Nat) (rest : List Nat) (budget : Nat) (h : Header)
    (hb : 1 ≤ budget) :
    headerReadLoop (fuel + 1) (10 :: rest) budget h = .ok (h, rest, budget - 1) := by
  simp [headerReadLoop, firstIdx, hb]

theorem headerReadLoop_line (fuel : Nat) (line rest : List Nat) (budget : Nat) (h : Header)
    (h10 : 10 ∉ line) (hne : line ≠ []) (hb : line.length + 1 ≤ budget) :
    headerReadLoop (fuel + 1) (line ++ 10 :: rest) budget h =
      match processLine line h with
      | .error e => .error e
      | .ok h' => headerReadLoop fuel rest (budget - (line.length + 1)) h' := by
  rw [headerReadLoop]
  rw [firstIdx_append_not_mem 10 line rest h10]
  simp only [if_pos hb]
  have ht : (line ++ 10 :: rest).take line.length = line := take_len_append line (10 :: rest)
  have hd : (line ++ 10 :: rest).drop (line.length + 1) = rest :=
    drop_len_succ_append line 10 rest
  rw [ht, hd]
  rw [if_neg (by
    simp only [Nat.lt_one_iff]
    intro hz
    exact hne (List.length_eq_zero.mp hz))]

theorem headerReadLoop_oversize_noeol (fuel : Nat) (s : List Nat) (budget : Nat)
    (h : Header) (hno : firstIdx 10 s = none) (hlen : budget < s.length) :
    headerReadLoop (fuel + 1) s budget h = .error .sizeExceeded := by
  rw [headerReadLoop, hno]
  simp [show ¬ s.length ≤ budget from by omega]

theorem headerReadLoop_oversize_line (fuel : Nat) (s : List Nat) (budget : Nat)
    (h : Header) (i : Nat) (hfi : firstIdx 10 s = some i) (hbi : budget < i + 1) :
    headerReadLoop (fuel + 1) s budget h = .error .sizeExceeded := by
  rw [headerReadLoop, hfi]
  simp [show ¬ i + 1 ≤ budget from by omega]

theorem processLine_single (line : List Nat) (h : Header) (p : List Nat)
    (hs : splitOnByte 58 (trimEndCR line) = [p]) :
    processLine line h =
      .error (.format ("invalid number of header field parts. Expected 2, got "
        ++ toString (1 : Nat))) := by
  simp [processLine, hs]

theorem processLine_empty_name (line : List Nat) (h : Header) (p0 p1 : List Nat)
    (ps : List (List Nat)) (hs : splitOnByte 58 (trimEndCR line) = p0 :: p1 :: ps)
    (hemp : trimBytes (decode p0) = []) :
    processLine line h = .error (.format "empty header field name") := by
  simp [processLine, hs, hemp]

theorem processLine_ok (line : List Nat) (h : Header) (p0 p1 : List Nat)
    (ps : List (List Nat)) (hs : splitOnByte 58 (trimEndCR line) = p0 :: p1 :: ps)
    (hne : trimBytes (decode p0) ≠ []) :
    processLine line h =
      .ok (Header.add_field h (trimBytes (decode p0)) (trimStartBytes (decode p1))) := by
  simp [processLine, hs, hne]

theorem add_field_append_gt (acc : Header) (k v : List Nat)
    (hacc : ∀ a ∈ acc, ltKey a.1 k = true) :
    Header.add_field acc k v = acc ++ [(k, [v])] := by
  induction acc with
  | nil => simp [Header.add_field]
  | cons a t ih =>
    have hak : ltKey a.1 k = true := hacc a (List.mem_cons_self a t)
    rw [add_field_cons]
    rw [if_neg (by rw [ltKey_asymm _ _ hak]; simp)]
    rw [if_neg (Ne.symm (ltKey_ne _ _ hak))]
    rw [ih fun a' ha' => hacc a' (List.mem_cons_of_mem a ha')]
    simp

theorem headerLine_no_eol (k j : List Nat) : 10 ∉ encode k ++ 58 :: 32 :: encode j := by
  intro hm
  rcases List.mem_append.mp hm with hm | hm
  · exact eol_not_mem_encode k hm
  · rcases List.mem_cons.mp hm with hm | hm
    · simp at hm
    · rcases List.mem_cons.mp hm with hm | hm
      · simp at hm
      · exact eol_not_mem_encode j hm

theorem headerLine_no_cr (k j : List Nat) : 13 ∉ encode k ++ 58 :: 32 :: encode j := by
  intro hm
  rcases List.mem_append.mp hm with hm | hm
  · exact cr_not_mem_encode k hm
  · rcases List.mem_cons.mp hm with hm | hm
    · simp at hm
    · rcases List.mem_cons.mp hm with hm | hm
      · simp at hm
      · exact cr_not_mem_encode j hm

theorem headerLine_ne_nil (k j : List Nat) : encode k ++ 58 :: 32 :: encode j ≠ [] := by
  simp

theorem headerLine_split (k j : List Nat) :
    splitOnByte 58 (encode k ++ 58 :: 32 :: encode j) = [encode k, 32 :: encode j] := by
  rw [splitOnByte_append 58 _ _ (colon_not_mem_encode k)]
  rw [splitOnByte_not_mem 58 (32 :: encode j) (by
    intro hm
    rcases List.mem_cons.mp hm with hm | hm
    · simp at hm
    · exact colon_not_mem_encode j hm)]

theorem processLine_header_line (k v : List Nat) (acc : Header)
    (htrim : trimBytes k = k) (hkne : k ≠ []) (hvtrim : trimStartBytes v = v) :
    processLine (encode k ++ 58 :: 32 :: encode v) acc =
      .ok (Header.add_field acc k v) := by
  have hcr : trimEndCR (encode k ++ 58 :: 32 :: encode v) =
      encode k ++ 58 :: 32 :: encode v :=
    trimEndCR_no_cr _ (headerLine_no_cr k v)
  have hs : splitOnByte 58 (trimEndCR (encode k ++ 58 :: 32 :: encode v)) =
      encode k :: (32 :: encode v) :: [] := by
    rw [hcr, headerLine_split]
  have hn : trimBytes (decode (encode k)) ≠ [] := by
    rw [decode_encode, htrim]
    exact hkne
  rw [processLine_ok _ acc _ _ _ hs hn]
  rw [decode_encode, htrim]
  rw [decode_cons_ne 32 (encode v) (by omega), decode_encode]
  rw [trimStart_cons_ws 32 v (by simp [isWsByte]), hvtrim]

theorem headerReadLoop_line_ok (fuel : Nat) (line rest : List Nat) (budget : Nat)
    (h h' : Header) (h10 : 10 ∉ line) (hne : line ≠ []) (hb : line.length + 1 ≤ budget)
    (hp : processLine line h = .ok h') :
    headerReadLoop (fuel + 1) (line ++ 10 :: rest) budget h =
      headerReadLoop fuel rest (budget - (line.length + 1)) h' := by
  rw [headerReadLoop_line fuel line rest budget h h10 hne hb, hp]

theorem headerReadLoop_line_err (fuel : Nat) (line rest : List Nat) (budget : Nat)
    (h : Header) (e : ReadErr) (h10 : 10 ∉ line) (hne : line ≠ [])
    (hb : line.length + 1 ≤ budget) (hp : processLine line h = .error e) :
    headerReadLoop (fuel + 1) (line ++ 10 :: rest) budget h = .error e := by
  rw [headerReadLoop_line fuel line rest budget h h10 hne hb, hp]

theorem goodEntryB_eq (k : List Nat) (vs : List (List Nat)) :
    goodEntryB (k, vs) = true ↔
      (k ≠ [] ∧ trimBytes k = k ∧ ∃ v, vs = [v] ∧ trimStartBytes v = v) := by
  cases vs with
  | nil => simp [goodEntryB]
  | cons v vrest =>
    cases vrest with
    | nil =>
      simp [goodEntryB]
      tauto
    | cons v2 vrest2 => simp [goodEntryB]

theorem write_to_cons (k : List Nat) (vs : List (List Nat)) (t : Header) :
    Header.write_to ((k, vs) :: t) =
      (headerFieldLine k vs ++ (Header.write_to t).1,
       (headerFieldLine k vs).length + (Header.write_to t).2) := rfl

theorem headerFieldLine_single (k v : List Nat) :
    headerFieldLine k [v] = (encode k ++ 58 :: 32 :: encode v) ++ [10] := by
  simp [headerFieldLine, joinComma]

theorem headerReadLoop_write (h : Header) :
    ∀ (fuel : Nat) (acc : Header) (tail : List Nat) (budget : Nat),
    (∀ e ∈ h, goodEntryB e = true) →
    (∀ a ∈ acc, ∀ e ∈ h, ltKey a.1 e.1 = true) →
    List.Pairwise (fun a b => ltKey a.1 b.1 = true) h →
    (Header.write_to h).1.length + 1 ≤ budget →
    ((Header.write_to h).1 ++ 10 :: tail).length < fuel →
    headerReadLoop fuel ((Header.write_to h).1 ++ 10 :: tail) budget acc =
      .ok (acc ++ h, tail, budget - ((Header.write_to h).1.length + 1)) := by
  induction h with
  | nil =>
    intro fuel acc tail budget _ _ _ hb hf
    cases fuel with
    | zero => simp [Header.write_to] at hf
    | succ f =>
      have hw : (Header.write_to ([] : Header)).1 = [] := rfl
      rw [hw] at hb hf ⊢
      rw [List.nil_append]
      rw [headerReadLoop_blank f tail budget acc (by omega)]
      simp
  | cons e t ih =>
    intro fuel acc tail budget hgood hacc hchain hb hf
    cases e with
    | mk k vs =>
      have hg := (goodEntryB_eq k vs).mp (hgood (k, vs) (List.mem_cons_self _ t))
      obtain ⟨hkne, htrim, v, hvs, hvtrim⟩ := hg
      subst hvs
      rw [List.pairwise_cons] at hchain
      obtain ⟨hhead, hchaint⟩ := hchain
      have hstream : (Header.write_to ((k, [v]) :: t)).1 ++ 10 :: tail =
          (encode k ++ 58 :: 32 :: encode v) ++
            10 :: ((Header.write_to t).1 ++ 10 :: tail) := by
        rw [write_to_cons, headerFieldLine_single]
        simp [List.append_assoc]
      have hwlen : (Header.write_to ((k, [v]) :: t)).1.length =
          (encode k ++ 58 :: 32 :: encode v).length + 1 +
            (Header.write_to t).1.length := by
        rw [write_to_cons, headerFieldLine_single]
        simp
        omega
      cases fuel with
      | zero => simp at hf
      | succ f =>
        rw [hstream]
        rw [headerReadLoop_line_ok f _ _ budget acc (Header.add_field acc k v)
          (headerLine_no_eol k v) (headerLine_ne_nil k v)
          (by rw [hwlen] at hb; simp at hb ⊢; omega)
          (processLine_header_line k v acc htrim hkne hvtrim)]
        rw [add_field_append_gt acc k v
          (fun a ha => hacc a ha (k, [v]) (List.mem_cons_self _ t))]
        rw [ih f (acc ++ [(k, [v])]) tail
          (budget - ((encode k ++ 58 :: 32 :: encode v).length + 1))
          (fun e' he' => hgood e' (List.mem_cons_of_mem _ he'))
          (by
            intro a ha e' he'
            rcases List.mem_append.mp ha with ha | ha
            · exact hacc a ha e' (List.mem_cons_of_mem _ he')
            · rcases List.mem_cons.mp ha with ha | ha
              · rw [ha]
                exact hhead e' he'
              · cases ha)
          hchaint
          (by rw [hwlen] at hb; omega)
          (by
            rw [hstream] at hf
            simp at hf ⊢
            omega)]
        rw [List.append_assoc]
        have harith : budget - ((encode k ++ 58 :: 32 :: encode v).length + 1) -
            ((Header.write_to t).1.length + 1) =
            budget - ((Header.write_to ((k, [v]) :: t)).1.length + 1) := by
          rw [hwlen]
          omega
        rw [harith]
        simp

theorem header_read_write (h : Header) (tail : List Nat)
    (hgood : ∀ e ∈ h, goodEntryB e = true)
    (hchain : List.Pairwise (fun a b => ltKey a.1 b.1 = true) h)
    (hb : (Header.write_to h).1.length + 1 ≤ MAX_HEADER_SIZE) :
    Header.read_from ((Header.write_to h).1 ++ 10 :: tail) = .ok (h, tail) := by
  unfold Header.read_from
  rw [headerReadLoop_write h _ Header.new tail MAX_HEADER_SIZE hgood
    (fun a ha => absurd ha (List.not_mem_nil a)) hchain hb (by omega)]
  rfl

theorem commandBytes_facts (c : Command) :
    10 ∉ commandBytes c ∧ trimBytes (commandBytes c) = commandBytes c ∧
      commandBytes c ≠ [] ∧ (commandBytes c).length + 1 ≤ 1024 ∧
      commandFromBytes (commandBytes c) = some c := by
  cases c <;> decide

theorem readCommand_append (c : Command) (rest : List Nat) :
    readCommand (commandBytes c ++ 10 :: rest) = .ok (c, rest) := by
  obtain ⟨h10, htrim, hne, hlen, hfrom⟩ := commandBytes_facts c
  have hfi : firstIdx 10 (commandBytes c ++ 10 :: rest) = some (commandBytes c).length :=
    firstIdx_append_not_mem 10 _ rest h10
  have hfiw : firstIdx 10 ((commandBytes c ++ 10 :: rest).take MAX_COMMAND_SIZE) =
      some (commandBytes c).length := by
    apply firstIdx_take 10 _ _ _ hfi
    show (commandBytes c).length < MAX_COMMAND_SIZE
    unfold MAX_COMMAND_SIZE
    omega
  simp only [readCommand]
  rw [hfiw]
  dsimp only
  have htake : ((commandBytes c ++ 10 :: rest).take MAX_COMMAND_SIZE).take
      (commandBytes c).length = commandBytes c := by
    rw [List.take_take]
    rw [min_eq_left (by unfold MAX_COMMAND_SIZE; omega)]
    exact take_len_append _ _
  have hdrop : (commandBytes c ++ 10 :: rest).drop ((commandBytes c).length + 1) = rest :=
    drop_len_succ_append _ 10 rest
  rw [htake, hdrop]
  rw [if_neg (by
    simp only [Nat.lt_one_iff]
    intro hz
    exact hne (List.length_eq_zero.mp hz))]
  rw [htrim]
  simp only [if_neg hne]
  rw [hfrom]

theorem readFrame_decomp (s s1 s2 : List Nat) (c : Command) (h : Header)
    (hc : readCommand s = .ok (c, s1)) (hh : Header.read_from s1 = .ok (h, s2)) :
    readFrame s =
      match (Header.get_field h contentLengthKey).bind List.head? with
      | some v =>
        match parseU64 v with
        | some n => .ok c h (Body.with_length s2 n)
        | none => .panicked
      | none => .ok c h (Body.new s2) := by
  unfold readFrame
  rw [hc]
  dsimp only
  rw [hh]

theorem frameWriteTo_new (c : Command) (h : Header) (body : List Nat) (h0 : 0 ∉ body) :
    frameWriteTo c h (Body.new body) =
      (commandBytes c ++ 10 :: ((Header.write_to h).1 ++ 10 :: (body ++ [0])),
       (commandBytes c).length + 1 + (Header.write_to h).2 + 1 + body.length + 1,
       ⟨[], 0, false⟩) := by
  unfold frameWriteTo
  rw [ioCopy_no_nul body h0]
  simp [List.append_assoc]

theorem trimBytes_of_forall_not (l : List Nat) (h : ∀ x ∈ l, isWsByte x = false) :
    trimBytes l = l := by
  unfold trimBytes trimStartBytes trimEndBytes
  rw [dropWhile_of_forall_not l h]
  rw [dropWhile_of_forall_not l.reverse (fun x hx => h x (List.mem_reverse.mp hx))]
  exact List.reverse_reverse l

theorem trimBytes_replicate_A (n : Nat) :
    trimBytes (List.replicate n 65) = List.replicate n 65 :=
  trimBytes_of_forall_not _ fun x hx => by
    rw [List.eq_of_mem_replicate hx]
    decide

theorem commandFromBytes_long (l : List Nat) (hl : 11 < l.length) :
    commandFromBytes l = none := by
  have hx : ∀ t : List Nat, t.length ≤ 11 → ¬ l = t := by
    intro t ht he
    rw [he] at hl
    omega
  unfold commandFromBytes
  rw [if_neg (hx _ (by decide)), if_neg (hx _ (by decide)), if_neg (hx _ (by decide)),
    if_neg (hx _ (by decide)), if_neg (hx _ (by decide)), if_neg (hx _ (by decide)),
    if_neg (hx _ (by decide)), if_neg (hx _ (by decide)), if_neg (hx _ (by decide)),
    if_neg (hx _ (by decide)), if_neg (hx _ (by decide)), if_neg (hx _ (by decide)),
    if_neg (hx _ (by decide)), if_neg (hx _ (by decide)), if_neg (hx _ (by decide))]

theorem splitOnByte_ne_nil (d : Nat) (l : List Nat) : splitOnByte d l ≠ [] := by
  induction l with
  | nil => simp [splitOnByte]
  | cons c rest ih =>
    rw [splitOnByte]
    rcases hx : splitOnByte d rest with _ | ⟨g, gs⟩
    · exact absurd hx ih
    · by_cases hc : c = d <;> simp [hc]

theorem firstIdx_replicate (d c n : Nat) (hne : c ≠ d) :
    firstIdx d (List.replicate n c) = none := by
  induction n with
  | zero => rfl
  | succ m ih => simp [List.replicate_succ, firstIdx, hne, ih]

theorem firstIdx_none_take (d n : Nat) (s : List Nat) (hno : firstIdx d s = none) :
    firstIdx d (s.take n) = none := by
  rw [firstIdx_eq_none_iff] at hno ⊢
  intro hm
  exact hno (List.take_subset n s hm)

theorem readCommand_truncated (s : List Nat) (hno : firstIdx 10 s = none)
    (hlen : MAX_COMMAND_SIZE ≤ s.length)
    (htrim : trimBytes (s.take MAX_COMMAND_SIZE) ≠ [])
    (hcf : commandFromBytes (trimBytes (s.take MAX_COMMAND_SIZE)) = none) :
    readCommand s = .error (.format "invalid command") := by
  simp only [readCommand]
  rw [firstIdx_none_take 10 MAX_COMMAND_SIZE s hno]
  dsimp only
  have hwl : (s.take MAX_COMMAND_SIZE).length = MAX_COMMAND_SIZE := by
    rw [List.length_take]
    exact min_eq_left hlen
  rw [if_neg (by rw [hwl]; unfold MAX_COMMAND_SIZE; omega)]
  rw [if_neg htrim, hcf]

theorem take_1024_replicate_1025 :
    (List.replicate 1025 (65 : Nat)).take MAX_COMMAND_SIZE = List.replicate 1024 65 := by
  rw [show MAX_COMMAND_SIZE = 1024 from rfl, List.take_replicate]
  norm_num

theorem replicate_1024_A_ne_nil : List.replicate 1024 (65 : Nat) ≠ [] := by
  intro he
  have hlen2 := congrArg List.length he
  rw [List.length_replicate] at hlen2
  simp at hlen2

theorem readCommand_replicate_1025 :
    readCommand (List.replicate 1025 65) = .error (.format "invalid command") := by
  apply readCommand_truncated
  · exact firstIdx_replicate 10 65 1025 (by omega)
  · rw [List.length_replicate]
    unfold MAX_COMMAND_SIZE
    omega
  · rw [take_1024_replicate_1025, trimBytes_replicate_A]
    exact replicate_1024_A_ne_nil
  · rw [take_1024_replicate_1025, trimBytes_replicate_A]
    apply commandFromBytes_long
    rw [List.length_replicate]
    omega

theorem processLine_noEmpty (line : List Nat) (h h' : Header)
    (hne : noEmptyValuesB h = true) (hp : processLine line h = .ok h') :
    noEmptyValuesB h' = true := by
  simp only [processLine] at hp
  rcases hs : splitOnByte 58 (trimEndCR line) with _ | ⟨p0, ptail⟩
  · rw [hs] at hp
    dsimp only at hp
    exact Except.noConfusion hp
  · rcases ptail with _ | ⟨p1, ps⟩
    · rw [hs] at hp
      dsimp only at hp
      exact Except.noConfusion hp
    · rw [hs] at hp
      dsimp only at hp
      by_cases hemp : trimBytes (decode p0) = []
      · rw [if_pos hemp] at hp
        exact Except.noConfusion hp
      · rw [if_neg hemp] at hp
        have hh := Except.ok.inj hp
        rw [← hh]
        exact noEmpty_add h _ _ hne

theorem headerReadLoop_noEmpty (fuel : Nat) :
    ∀ (s : List Nat) (budget : Nat) (h h' : Header) (rest : List Nat) (b' : Nat),
    noEmptyValuesB h = true → headerReadLoop fuel s budget h = .ok (h', rest, b') →
    noEmptyValuesB h' = true := by
  induction fuel with
  | zero =>
    intro s budget h h' rest b' _ hr
    exact Except.noConfusion hr
  | succ f ih =>
    intro s budget h h' rest b' hne hr
    rw [headerReadLoop] at hr
    rcases hfi : firstIdx 10 s with _ | i
    · rw [hfi] at hr
      dsimp only at hr
      by_cases hbl : s.length ≤ budget
      · rw [if_pos hbl] at hr
        by_cases hsl : s.length < 1
        · rw [if_pos hsl] at hr
          have hinj := Except.ok.inj hr
          have hh' : h = h' := (Prod.ext_iff.mp hinj).1
          rw [← hh']
          exact hne
        · rw [if_neg hsl] at hr
          rcases hpl : processLine s h with e | h2
          · rw [hpl] at hr
            exact Except.noConfusion hr
          · rw [hpl] at hr
            exact ih [] (budget - s.length) h2 h' rest b'
              (processLine_noEmpty s h h2 hne hpl) hr
      · rw [if_neg hbl] at hr
        exact Except.noConfusion hr
    · rw [hfi] at hr
      dsimp only at hr
      by_cases hbl : i + 1 ≤ budget
      · rw [if_pos hbl] at hr
        by_cases hsl : (s.take i).length < 1
        · rw [if_pos hsl] at hr
          have hinj := Except.ok.inj hr
          have hh' : h = h' := (Prod.ext_iff.mp hinj).1
          rw [← hh']
          exact hne
        · rw [if_neg hsl] at hr
          rcases hpl : processLine (s.take i) h with e | h2
          · rw [hpl] at hr
            exact Except.noConfusion hr
          · rw [hpl] at hr
            exact ih (s.drop (i + 1)) (budget - (i + 1)) h2 h' rest b'
              (processLine_noEmpty _ h h2 hne hpl) hr
      · rw [if_neg hbl] at hr
        exact Except.noConfusion hr

theorem applyHOps_noEmpty (ops : List HOp) :
    ∀ h : Header, (∀ op ∈ ops, wfHOp op = true) → noEmptyValuesB h = true →
    noEmptyValuesB (applyHOps ops h) = true := by
  induction ops with
  | nil =>
    intro h _ hne
    exact hne
  | cons op t ih =>
    intro h hwf hne
    show noEmptyValuesB (applyHOps t (applyHOp h op)) = true
    apply ih (applyHOp h op) (fun op' ho' => hwf op' (List.mem_cons_of_mem op ho'))
    have hwo := hwf op (List.mem_cons_self op t)
    cases op with
    | add k v => exact noEmpty_add h k v hne
    | set k vs =>
      apply noEmpty_set h k vs _ hne
      simp [wfHOp] at hwo
      intro hnil
      rw [hnil] at hwo
      simp at hwo
    | remove k => exact noEmpty_remove h k hne

/-- C1: the claim says `Body::close()` discards exactly the remaining unread
bytes of the frame's body, leaving the stream positioned right after the
frame's NUL terminator, with bytes after the NUL still present.  The code
instead copies the raw borrowed stream to a sink, draining it to true
end-of-input: after the scan-bounded frame `CONNECT\n\nAB<NUL>CD` has its
body fully read, the source still holds `CD`, and `close` (run by `Drop
for Frame`) empties it instead of leaving it. -/
theorem c1_close_discards_trailing_bytes :
    readFrame (strBytes "CONNECT\n\n" ++ [65, 66, 0, 67, 68]) =
      FrameResult.ok Command.connect Header.new (Body.new [65, 66, 0, 67, 68]) ∧
    bodyReadAll (Body.new [65, 66, 0, 67, 68]) = ([65, 66], ⟨[67, 68], 0, true⟩) ∧
    frameDrop ⟨[67, 68], 0, true⟩ = ⟨[], 0, true⟩ ∧
    ([67, 68] : List Nat) ≠ [] := by
  refine ⟨by decide, by decide, ?_, by decide⟩
  show Body.close ⟨[67, 68], 0, true⟩ = ⟨[], 0, true⟩
  rw [body_close_eq]

/-- C2 counterexample: a length-bounded body with `Content-Length: 1` over
the stream `ab<NUL>` yields two bytes under draining reads, not exactly
one: once `limit` reaches 0 the next read falls into the NUL-scan branch
and returns the byte `b` that lies after the first N source bytes. -/
theorem c2_counterexample :
    bodyReadAll (Body.with_length [97, 98, 0] 1) = ([97, 98], ⟨[], 0, true⟩) ∧
    ([97, 98] : List Nat).length ≠ 1 := by decide

/-- C2 (amended): over a stream obeying the wire contract (the byte at
offset N is the NUL terminator), draining a length-bounded body with
`Content-Length: N` yields exactly the first N bytes and then end-of-stream;
the read that follows the exhausted countdown runs the NUL scan once,
consuming the terminator and marking the body done, after which every
read returns zero bytes. -/
theorem c2_length_bounded_body (pre post : List Nat) :
    bodyReadAll (Body.with_length (pre ++ 0 :: post) pre.length) =
      (pre, ⟨post, 0, true⟩) ∧
    (∀ n, Body.read ⟨post, 0, true⟩ n = ([], ⟨post, 0, true⟩)) := by
  refine ⟨bodyReadAll_with_length pre post, ?_⟩
  intro n
  exact body_read_done _ n rfl

/-- C3: the claim says a scan-bounded body's concatenated output equals all
bytes before the first NUL for caller buffers of any sizes, with the NUL
consumed.  With the 4-byte source `ab<NUL>c` and a 1-byte caller buffer the
code copies only `a`, consumes two bytes (leaving the NUL on the stream),
and marks the body done, so `b` is lost and every further read returns
zero bytes. -/
theorem c3_scan_read_small_buffer :
    (Body.new [97, 98, 0, 99]).read 1 = ([97], ⟨[0, 99], 0, true⟩) ∧
    Body.read ⟨[0, 99], 0, true⟩ 1 = ([], ⟨[0, 99], 0, true⟩) := by decide

/-- C9 counterexample: `set_field` stores the given vector verbatim, so
passing an empty vector leaves the key present with an empty value list,
violating the claimed invariant. -/
theorem c9_counterexample :
    Header.get_field (Header.set_field Header.new [97] []) [97] = some [] := by decide

/-- C9 (amended): `add_field` always appends to a nonempty vector,
`Header::read_from` builds headers through `add_field` only, and
`set_field`/`remove_field` preserve the invariant provided `set_field` is
never handed an empty vector; under that proviso every present key maps to
a nonempty value list. -/
theorem c9_no_empty_value_lists :
    (∀ ops : List HOp, (∀ op ∈ ops, wfHOp op = true) →
      noEmptyValuesB (applyHOps ops Header.new) = true) ∧
    (∀ s h rest, Header.read_from s = Except.ok (h, rest) →
      noEmptyValuesB h = true) ∧
    (∀ h : Header, noEmptyValuesB h = true →
      ∀ k vs, Header.get_field h k = some vs → vs ≠ []) := by
  refine ⟨?_, ?_, ?_⟩
  · intro ops hwf
    exact applyHOps_noEmpty ops Header.new hwf rfl
  · intro s h rest hr
    unfold Header.read_from at hr
    rcases hl : headerReadLoop (s.length + 1) s MAX_HEADER_SIZE Header.new with e | t
    · rw [hl] at hr
      exact Except.noConfusion hr
    · obtain ⟨t1, t2, t3⟩ := t
      rw [hl] at hr
      simp only [Except.map] at hr
      have hinj := Except.ok.inj hr
      have h1 : t1 = h := (Prod.ext_iff.mp hinj).1
      rw [← h1]
      exact headerReadLoop_noEmpty (s.length + 1) s MAX_HEADER_SIZE Header.new t1 t2 t3
        rfl hl
  · intro h hne k vs hg
    exact noEmpty_get h k vs hne hg

/-- C9 witness: a concrete operation sequence (add, nonempty set, remove)
keeps the invariant. -/
theorem c9_witness :
    noEmptyValuesB (applyHOps
      [HOp.add [97] [98], HOp.set [97] [[99]], HOp.remove [100]] Header.new) = true :=
  c9_no_empty_value_lists.1 _ (by decide)

/-- C10: `with_length(source, 0)` builds exactly the same state as
`new(source)` (scan mode), so draining it stops at the first NUL, and a
parsed frame whose `Content-Length` value is `0` carries a scan-bounded
body over the rest of the stream. -/
theorem c10_with_length_zero :
    (∀ s : List Nat, Body.with_length s 0 = Body.new s) ∧
    (∀ pre post : List Nat, 0 ∉ pre →
      bodyReadAll (Body.with_length (pre ++ 0 :: post) 0) = (pre, ⟨post, 0, true⟩)) ∧
    (∀ s s1 s2 : List Nat, ∀ c : Command, ∀ h : Header,
      readCommand s = .ok (c, s1) → Header.read_from s1 = .ok (h, s2) →
      (Header.get_field h contentLengthKey).bind List.head? = some (strBytes "0") →
      readFrame s = .ok c h (Body.new s2)) := by
  refine ⟨fun s => rfl, ?_, ?_⟩
  · intro pre post h0
    exact bodyReadAll_scan pre post h0
  · intro s s1 s2 c h hc hh hcl
    rw [readFrame_decomp s s1 s2 c h hc hh, hcl]
    dsimp only
    rw [show parseU64 (strBytes "0") = some 0 from by decide]
    rfl

/-- C10 witness: the frame `CONNECT` with `Content-Length: 0` over the
payload `a<NUL>b` gets a scan-bounded body over `a<NUL>b`. -/
theorem c10_witness :
    readFrame (strBytes "CONNECT\nContent-Length: 0\n\n" ++ [97, 0, 98]) =
      FrameResult.ok Command.connect
        [(strBytes "Content-Length", [strBytes "0"])]
        (Body.new [97, 0, 98]) :=
  c10_with_length_zero.2.2 _ (strBytes "Content-Length: 0\n\n" ++ [97, 0, 98])
    [97, 0, 98] Command.connect [(strBytes "Content-Length", [strBytes "0"])]
    (by decide) (by decide) (by decide)

/-- C5 counterexample: a 1025-byte command line of `A` bytes with no
newline does not fail with size-exceeded: `Read::take(1024)` silently
truncates, and the truncated text is rejected as an unknown command — a
Format error. -/
theorem c5_counterexample :
    readFrame (List.replicate 1025 65) = FrameResult.err (.format "invalid command") ∧
    ReadErr.format "invalid command" ≠ ReadErr.sizeExceeded := by
  constructor
  · unfold readFrame
    rw [readCommand_replicate_1025]
  · decide

/-- C5 (amended): the header block limit is enforced by the (spec-modelled)
LimitedReader: a header block whose first newline lies beyond the
1,024,000-byte budget (or that has no newline within a stream longer than
the budget) fails with size-exceeded.  The command line limit is not: a
command line longer than 1024 bytes with no newline is truncated to its
first 1024 bytes by `Read::take`, and fails with the Format error
`invalid command` whenever that truncated, trimmed prefix is not a
canonical command word. -/
theorem c5_size_limits :
    (∀ s : List Nat, firstIdx 10 s = none → MAX_HEADER_SIZE < s.length →
      Header.read_from s = .error .sizeExceeded) ∧
    (∀ s : List Nat, ∀ i, firstIdx 10 s = some i → MAX_HEADER_SIZE < i + 1 →
      Header.read_from s = .error .sizeExceeded) ∧
    (∀ s : List Nat, firstIdx 10 s = none → MAX_COMMAND_SIZE ≤ s.length →
      trimBytes (s.take MAX_COMMAND_SIZE) ≠ [] →
      commandFromBytes (trimBytes (s.take MAX_COMMAND_SIZE)) = none →
      readCommand s = .error (.format "invalid command")) := by
  refine ⟨?_, ?_, ?_⟩
  · intro s hno hlen
    unfold Header.read_from
    rw [headerReadLoop_oversize_noeol s.length s MAX_HEADER_SIZE Header.new hno hlen]
    rfl
  · intro s i hfi hbi
    unfold Header.read_from
    rw [headerReadLoop_oversize_line s.length s MAX_HEADER_SIZE Header.new i hfi hbi]
    rfl
  · intro s hno hlen htrim hcf
    exact readCommand_truncated s hno hlen htrim hcf

/-- C5 witness: a million-and-one byte headerless block fails with
size-exceeded, and the 1025-byte command line fails with the Format
error. -/
theorem c5_witness :
    Header.read_from (List.replicate 1024001 65) = .error .sizeExceeded ∧
    readCommand (List.replicate 1025 65) = .error (.format "invalid command") := by
  constructor
  · exact c5_size_limits.1 _ (firstIdx_replicate 10 65 1024001 (by omega))
      (by rw [List.length_replicate]; unfold MAX_HEADER_SIZE; omega)
  · exact c5_size_limits.2.2 _ (firstIdx_replicate 10 65 1025 (by omega))
      (by rw [List.length_replicate]; unfold MAX_COMMAND_SIZE; omega)
      (by rw [take_1024_replicate_1025, trimBytes_replicate_A]
          exact replicate_1024_A_ne_nil)
      (by
        rw [take_1024_replicate_1025, trimBytes_replicate_A]
        apply commandFromBytes_long
        rw [List.length_replicate]
        omega)

/-- C6: after a successful command and header parse, `Frame::read_from`
takes the first `Content-Length` value when the field is present: a
successful unsigned parse yields a length-bounded body with that count, a
failed parse aborts through the uncaught `unwrap()` (the `panicked`
outcome, not a returned error), and an absent field yields a scan-bounded
body. -/
theorem c6_content_length_dispatch (s s1 s2 : List Nat) (c : Command) (h : Header)
    (hc : readCommand s = .ok (c, s1)) (hh : Header.read_from s1 = .ok (h, s2)) :
    ((Header.get_field h contentLengthKey).bind List.head? = none →
      readFrame s = .ok c h (Body.new s2)) ∧
    (∀ v n, (Header.get_field h contentLengthKey).bind List.head? = some v →
      parseU64 v = some n → readFrame s = .ok c h (Body.with_length s2 n)) ∧
    (∀ v, (Header.get_field h contentLengthKey).bind List.head? = some v →
      parseU64 v = none → readFrame s = .panicked) := by
  refine ⟨?_, ?_, ?_⟩
  · intro hn
    rw [readFrame_decomp s s1 s2 c h hc hh, hn]
  · intro v n hv hp
    rw [readFrame_decomp s s1 s2 c h hc hh, hv]
    dsimp only
    rw [hp]
  · intro v hv hp
    rw [readFrame_decomp s s1 s2 c h hc hh, hv]
    dsimp only
    rw [hp]

/-- C6 witness: `CONNECT` with `Content-Length: 2` yields a length-bounded
body with count 2. -/
theorem c6_witness :
    readFrame (strBytes "CONNECT\nContent-Length: 2\n\n" ++ [97, 98, 0]) =
      FrameResult.ok Command.connect [(strBytes "Content-Length", [strBytes "2"])]
        (Body.with_length [97, 98, 0] 2) :=
  (c6_content_length_dispatch _ (strBytes "Content-Length: 2\n\n" ++ [97, 98, 0])
    [97, 98, 0] Command.connect [(strBytes "Content-Length", [strBytes "2"])]
    (by decide) (by decide)).2.1 (strBytes "2") 2 (by decide) (by decide)

/-- C7: for a header line (no newline, nonempty, within budget): fewer than
two colon-delimited parts is the Format error naming the part count; a
name that decodes and trims to empty is the `empty header field name`
Format error; otherwise the loop continues having added, via `add_field`,
the fully-trimmed decoded name and the decoded value trimmed on the left
only (trailing value whitespace survives in `trimStartBytes`). -/
theorem c7_header_line_processing (line rest : List Nat) (h10 : 10 ∉ line)
    (hne : line ≠ []) (hb : line.length + 1 ≤ MAX_HEADER_SIZE) :
    ((splitOnByte 58 (trimEndCR line)).length < 2 →
      Header.read_from (line ++ 10 :: rest) =
        .error (.format ("invalid number of header field parts. Expected 2, got "
          ++ toString (1 : Nat)))) ∧
    (∀ p0 p1 ps, splitOnByte 58 (trimEndCR line) = p0 :: p1 :: ps →
      trimBytes (decode p0) = [] →
      Header.read_from (line ++ 10 :: rest) =
        .error (.format "empty header field name")) ∧
    (∀ p0 p1 ps, splitOnByte 58 (trimEndCR line) = p0 :: p1 :: ps →
      trimBytes (decode p0) ≠ [] →
      ∀ fuel budget h0, line.length + 1 ≤ budget →
        headerReadLoop (fuel + 1) (line ++ 10 :: rest) budget h0 =
          headerReadLoop fuel rest (budget - (line.length + 1))
            (Header.add_field h0 (trimBytes (decode p0)) (trimStartBytes (decode p1)))) := by
  refine ⟨?_, ?_, ?_⟩
  · intro hparts
    rcases hs : splitOnByte 58 (trimEndCR line) with _ | ⟨p, ptail⟩
    · exact absurd hs (splitOnByte_ne_nil 58 _)
    · rcases ptail with _ | ⟨p1, ps⟩
      · unfold Header.read_from
        rw [headerReadLoop_line_err _ line rest MAX_HEADER_SIZE Header.new _
          h10 hne hb (processLine_single line Header.new p hs)]
        rfl
      · rw [hs] at hparts
        simp at hparts
        omega
  · intro p0 p1 ps hs hemp
    unfold Header.read_from
    rw [headerReadLoop_line_err _ line rest MAX_HEADER_SIZE Header.new _
      h10 hne hb (processLine_empty_name line Header.new p0 p1 ps hs hemp)]
    rfl
  · intro p0 p1 ps hs hnm fuel budget h0 hbb
    exact headerReadLoop_line_ok fuel line rest budget h0 _ h10 hne hbb
      (processLine_ok line h0 p0 p1 ps hs hnm)

/-- C7 witness: the colon-free line `abc` is rejected with the part-count
Format error. -/
theorem c7_witness :
    Header.read_from (strBytes "abc" ++ 10 :: []) =
      .error (.format ("invalid number of header field parts. Expected 2, got "
        ++ toString (1 : Nat))) :=
  (c7_header_line_processing (strBytes "abc") [] (by decide) (by decide)
    (by decide)).1 (by decide)

/-- C8: headers built by `add_field` from the same key-distinct field set in
any order are equal (the `BTreeMap` normalizes order), the representation
is always sorted strictly by key, and `write_to` emits one
`encode(name): encode(join(values, ","))\n` line per entry in that sorted
order, returning exactly the number of bytes written. -/
theorem c8_write_to_sorted_deterministic :
    (∀ ps qs : List (List Nat × List Nat), ps.Perm qs → (ps.map Prod.fst).Nodup →
      buildHeader ps = buildHeader qs) ∧
    (∀ ps : List (List Nat × List Nat), sortedKeysB (buildHeader ps) = true) ∧
    (∀ h : Header, (Header.write_to h).1 =
      (h.map (fun e => headerFieldLine e.1 e.2)).flatten ∧
      (Header.write_to h).2 = (Header.write_to h).1.length) := by
  refine ⟨?_, ?_, ?_⟩
  · intro ps qs hperm hnd
    apply header_ext _ _ (buildHeader_pairwise ps) (buildHeader_pairwise qs)
    intro k
    rw [get_field_buildHeader, get_field_buildHeader]
    have hv : valuesOf k ps = valuesOf k qs :=
      perm_eq_of_length_le_one _ _ (valuesOf_perm k ps qs hperm)
        (valuesOf_length_le_one k ps hnd)
    rw [hv]
  · intro ps
    exact (sortedKeysB_iff_pairwise _).mpr (buildHeader_pairwise ps)
  · intro h
    induction h with
    | nil => exact ⟨rfl, rfl⟩
    | cons e t ih =>
      cases e with
      | mk k vs =>
        constructor
        · rw [write_to_cons]
          simp [ih.1]
        · rw [write_to_cons]
          dsimp only
          rw [List.length_append, ih.2]

/-- C8 witness: two insertion orders of the fields `a` and `b` build the
same header. -/
theorem c8_witness :
    buildHeader [(strBytes "b", [49]), (strBytes "a", [50])] =
      buildHeader [(strBytes "a", [50]), (strBytes "b", [49])] :=
  c8_write_to_sorted_deterministic.1 _ _ (by decide) (by decide)

/-- C4 counterexample: the header `k -> ["a", "b"]` has unique keys and no
reserved characters, and the empty body has no NUL, yet the round trip
yields `k -> ["a,b"]`: the writer joins the two values with a comma and
the parser never splits them back. -/
theorem c4_counterexample :
    readFrame (frameWriteTo Command.connect [([107], [[97], [98]])] (Body.new [])).1 =
      FrameResult.ok Command.connect [([107], [[97, 44, 98]])] (Body.new [0]) ∧
    ([([107], [[97, 44, 98]])] : Header) ≠ [([107], [[97], [98]])] := by decide

/-- C4 (amended): for any command, any sorted header whose every entry has
a nonempty trim-stable name and exactly one left-trim-stable value, whose
serialized block fits the 1,024,000-byte budget, and whose
`Content-Length` field (if any) declares exactly the body length, and any
NUL-free body: parsing the serialization reproduces the command, the
header as a mapping, and the body bytes. -/
theorem c4_round_trip (c : Command) (h : Header) (body : List Nat)
    (hsorted : sortedKeysB h = true)
    (hgood : ∀ e ∈ h, goodEntryB e = true)
    (hsize : (Header.write_to h).1.length + 1 ≤ MAX_HEADER_SIZE)
    (h0 : 0 ∉ body)
    (hcl : clConsistent h body.length = true) :
    ∃ b : Body, readFrame (frameWriteTo c h (Body.new body)).1 = FrameResult.ok c h b ∧
      (bodyReadAll b).1 = body := by
  have hchain := (sortedKeysB_iff_pairwise h).mp hsorted
  have hbytes : (frameWriteTo c h (Body.new body)).1 =
      commandBytes c ++ 10 :: ((Header.write_to h).1 ++ 10 :: (body ++ [0])) := by
    rw [frameWriteTo_new c h body h0]
  rw [hbytes]
  have hc : readCommand
      (commandBytes c ++ 10 :: ((Header.write_to h).1 ++ 10 :: (body ++ [0]))) =
      .ok (c, (Header.write_to h).1 ++ 10 :: (body ++ [0])) := readCommand_append c _
  have hh : Header.read_from ((Header.write_to h).1 ++ 10 :: (body ++ [0])) =
      .ok (h, body ++ [0]) := header_read_write h _ hgood hchain hsize
  rcases hclv : (Header.get_field h contentLengthKey).bind List.head? with _ | v
  · refine ⟨Body.new (body ++ [0]), ?_, ?_⟩
    · rw [readFrame_decomp _ _ _ c h hc hh, hclv]
    · have h2 : bodyReadAll (Body.new (body ++ [0])) = (body, ⟨[], 0, true⟩) :=
        bodyReadAll_scan body [] h0
      rw [h2]
  · unfold clConsistent at hcl
    rw [hclv] at hcl
    rw [beq_iff_eq] at hcl
    refine ⟨Body.with_length (body ++ [0]) body.length, ?_, ?_⟩
    · rw [readFrame_decomp _ _ _ c h hc hh, hclv]
      dsimp only
      rw [hcl]
    · have h2 : bodyReadAll (Body.with_length (body ++ [0]) body.length) =
          (body, ⟨[], 0, true⟩) := bodyReadAll_with_length body []
      rw [h2]

/-- C4 witness: the frame `SEND` with header `A: x` and body `hi` round
trips. -/
theorem c4_witness :
    ∃ b : Body,
      readFrame (frameWriteTo Command.send [(strBytes "A", [strBytes "x"])]
        (Body.new [104, 105])).1 =
        FrameResult.ok Command.send [(strBytes "A", [strBytes "x"])] b ∧
      (bodyReadAll b).1 = [104, 105] :=
  c4_round_trip Command.send [(strBytes "A", [strBytes "x"])] [104, 105]
    (by decide) (by decide) (by decide) (by decide) (by decide)

end Stomp
